import Mathlib

/-!
# Verification of the blockdreamer distance engine, classifier and orchestrator helpers

This file gives a shallow embedding of the parts of the `blockdreamer` sources
relevant to the metric laws of the attestation-list distance (`src/distance.rs`),
the closest-match classifier and prune step (`src/main.rs`), the wire selection
of block requests (`src/node.rs`) and the sink endpoint construction
(`src/post.rs`), together with proofs and refutations of the specified
properties.

Modelling conventions:
* machine integers (`usize`, `u64`) are modelled as `Nat`; all quantities here
  are non-negative and no arithmetic in the modelled code overflows;
* an SSZ `BitList` is modelled as a `List Bool` of its data bits (in memory the
  Rust `Bitfield` stores the data bits and a separate length; the length marker
  bit only exists on the wire);
* `HashMap`/`HashSet` iteration order is unspecified in Rust; maps are modelled
  by their lookup functions and key sets by deduplicated key lists.  Every
  derived quantity below is invariant under the key order (sums, and delta
  lists are sorted by a key that is injective on any one delta list);
* the external crate function `pathfinding::kuhn_munkres::kuhn_munkres_min` is
  not part of this repository; its contract is to return a minimum-cost
  assignment for a square cost matrix.  It is modelled by the first minimizer
  in a fixed enumeration of all permutations.  All cost-level results proved
  below are independent of which minimizer is chosen.
-/

/-! ## Bitfields (`ssz_types::Bitfield`, variable-length `BitList`) -/

/-- `Bitfield::num_set_bits`: the number of set bits. -/
def num_set_bits (bits : List Bool) : Nat := bits.count true

/-- `Bitfield::difference` (`self & !other`): bytewise `and`-`not` over the
common prefix, keeping `self`'s remaining bits unchanged (the Rust
`difference_inplace` only rewrites the first `min` bytes). -/
def difference : List Bool → List Bool → List Bool
  | [], _ => []
  | a :: as_, [] => a :: difference as_ []
  | a :: as_, b :: bs => (a && !b) :: difference as_ bs

/-- Bitwise xor of two bitfields, zero-extending the shorter one.  Used to
state the spec's `popcount(a.bits ^ b.bits)`. -/
def xorBits : List Bool → List Bool → List Bool
  | [], bs => bs
  | as_, [] => as_
  | a :: as_, b :: bs => (a != b) :: xorBits as_ bs

/-! ## Attestation data model (`eth2::types`) -/

structure Checkpoint where
  epoch : Nat
  root : Nat
  deriving DecidableEq, Repr

structure AttestationData where
  slot : Nat
  index : Nat
  beacon_block_root : Nat
  source : Checkpoint
  target : Checkpoint
  deriving DecidableEq, Repr

/-- An attestation: vote data plus aggregation bitfield.  (The signature field
plays no role in the distance code and is omitted; list equality in the
property tests is determined by `data` and `aggregation_bits` since the tests
use a constant empty signature.) -/
structure Attestation where
  data : AttestationData
  aggregation_bits : List Bool
  deriving DecidableEq, Repr

/-! ## Single-attestation distance (`impl Distance for Attestation<E>`) -/

/-- Cost of insertions and deletions (`INDEL_COST` in `src/distance.rs`). -/
def INDEL_COST : Nat := 128

namespace Attestation

/-- `Attestation::delta`: `None` if the vote data differ, otherwise the sum of
the set bits unique to each side. -/
def delta (a b : Attestation) : Option Nat :=
  if a.data = b.data then
    some (num_set_bits (difference a.aggregation_bits b.aggregation_bits) +
          num_set_bits (difference b.aggregation_bits a.aggregation_bits))
  else none

/-- `Attestation::delta_to_distance` is the identity on the scalar delta. -/
def delta_to_distance (d : Nat) : Nat := d

/-- The `Distance::distance` default method: map `delta_to_distance` over the
delta. -/
def distance (a b : Attestation) : Option Nat :=
  (a.delta b).map delta_to_distance

end Attestation

/-! ## Attestation-list delta (`impl Distance for &[Attestation<E>]`) -/

/-- `index_by_attestation_data`, modelled as the lookup function of the
produced `HashMap`: for a key `d`, the list of `(original_index, attestation)`
pairs with vote data `d`, in encounter order (as produced by
`into_group_map_by` over the enumerated slice). -/
def index_by_attestation_data (atts : List Attestation) (d : AttestationData) :
    List (Nat × Attestation) :=
  atts.enum.filter (fun p => p.2.data = d)

/-- The delta DAG elements (`enum Delta` in `src/distance.rs`). -/
inductive Delta
  | Modify (left right pos_distance bit_distance : Nat)
  | InsertLeft (index num_set_bits : Nat)
  | InsertRight (index num_set_bits : Nat)
  deriving DecidableEq, Repr

/-- `Delta::total_distance`. -/
def Delta.total_distance : Delta → Nat
  | .Modify _ _ pos_distance bit_distance => pos_distance + bit_distance
  | .InsertLeft _ n => n + INDEL_COST
  | .InsertRight _ n => n + INDEL_COST

/-- `abs_diff`: `|x - y|` (the Rust widens to `isize` before subtracting; on
naturals this is `Nat.dist`). -/
def abs_diff (x y : Nat) : Nat := Nat.dist x y

/-- One cell of the cost matrix built in `compute_matching_att_deltas`: row `i`
over `atts1`, column `j` over `atts2`.  The `(None, None)` cell is unreachable
(`n` is the max of the lengths) and is given the junk value `0`. -/
def matrixEntry (atts1 atts2 : List (Nat × Attestation)) (i j : Nat) : Nat :=
  match atts1.get? i, atts2.get? j with
  | some p, none => num_set_bits p.2.aggregation_bits + INDEL_COST
  | none, some q => num_set_bits q.2.aggregation_bits + INDEL_COST
  | some p, some q => abs_diff p.1 q.1 + (p.2.distance q.2).getD 0
  | none, none => 0

/-- The total cost of an assignment `σ` (row `k` matched to column `σₖ`). -/
def assignCost (atts1 atts2 : List (Nat × Attestation)) (σ : List Nat) : Nat :=
  ∑ k ∈ Finset.range σ.length, matrixEntry atts1 atts2 k (σ.getD k 0)

/-- First element of `l` minimizing `f` (ties broken towards the front). -/
def argminFirst (f : α → Nat) : List α → Option α
  | [] => none
  | a :: as_ =>
    match argminFirst f as_ with
    | none => some a
    | some b => if f a ≤ f b then some a else some b

/-- All ways of inserting `x` into a list. -/
def insertAll (x : α) : List α → List (List α)
  | [] => [[x]]
  | y :: ys => (x :: y :: ys) :: (insertAll x ys).map (y :: ·)

/-- All permutations of a list (a structurally recursive enumeration). -/
def permsOf : List α → List (List α)
  | [] => [[]]
  | x :: xs => ((permsOf xs).map (insertAll x)).flatten

/-- Model of the external `pathfinding::kuhn_munkres::kuhn_munkres_min`
(a dependency, not part of this repository).  Its contract: return a
minimum-cost perfect matching of the `n × n` matrix, as the vector mapping each
row to its assigned column.  Modelled as the first minimizer in the `permsOf`
enumeration of the permutations of `List.range n`; every cost-level statement
proved below is invariant under this choice. -/
def kuhn_munkres_min (cost : List Nat → Nat) (n : Nat) : List Nat :=
  (argminFirst cost (permsOf (List.range n))).getD (List.range n)

/-- Reconstruction of the per-bucket deltas from the solved assignment, as in
the `for (i, j) in att1_to_att2_mapping` loop.  The `(None, None)` arm is
unreachable (Rust panics there); it is given the junk value `Modify 0 0 0 0`. -/
def reconstructDeltas (atts1 atts2 : List (Nat × Attestation)) (σ : List Nat) :
    List Delta :=
  (List.range σ.length).map fun k =>
    match atts1.get? k, atts2.get? (σ.getD k 0) with
    | some p, some q =>
        .Modify p.1 q.1 (abs_diff p.1 q.1) ((p.2.distance q.2).getD 0)
    | some p, none => .InsertLeft p.1 (num_set_bits p.2.aggregation_bits)
    | none, some q => .InsertRight q.1 (num_set_bits q.2.aggregation_bits)
    | none, none => .Modify 0 0 0 0

/-- `compute_matching_att_deltas`: build the square matrix, solve the
assignment, reconstruct the deltas. -/
def compute_matching_att_deltas (atts1 atts2 : List (Nat × Attestation)) :
    List Delta :=
  let n := max atts1.length atts2.length
  reconstructDeltas atts1 atts2 (kuhn_munkres_min (assignCost atts1 atts2) n)

/-- The sort key used by `sort_deltas`: `(left index, right index, handedness)`. -/
def Delta.sortKey : Delta → Nat × Nat × Nat
  | .Modify l r _ _ => (l, r, 0)
  | .InsertLeft i _ => (i, i, 0)
  | .InsertRight i _ => (i, i, 1)

/-- Lexicographic comparison of sort keys. -/
def Delta.keyLe (d1 d2 : Delta) : Bool :=
  let k1 := d1.sortKey
  let k2 := d2.sortKey
  decide (k1.1 < k2.1) ||
    (decide (k1.1 = k2.1) &&
      (decide (k1.2.1 < k2.2.1) ||
        (decide (k1.2.1 = k2.2.1) && decide (k1.2.2 ≤ k2.2.2))))

/-- Insertion of an element into a sorted list, by a boolean comparator. -/
def orderedInsert (le : α → α → Bool) (a : α) : List α → List α
  | [] => [a]
  | b :: bs => if le a b then a :: b :: bs else b :: orderedInsert le a bs

/-- A stable comparison sort (model of the library sorts used by the code;
always applied where either the comparator's ties are impossible or the tie
behaviour coincides with the library's). -/
def sortBy (le : α → α → Bool) : List α → List α
  | [] => []
  | a :: as_ => orderedInsert le a (sortBy le as_)

/-- `sort_deltas`: sort by `(left, right, handedness)`.  These keys are
pairwise distinct within any delta list produced by the algorithm, so the
result does not depend on the input order (Rust uses an unstable sort). -/
def sort_deltas (deltas : List Delta) : List Delta :=
  sortBy Delta.keyLe deltas

/-- The key set iterated by the list-delta loop: all distinct `AttestationData`
values appearing on either side (a `HashSet` in Rust; iteration order is
unspecified there and immaterial here). -/
def attDatas (xs ys : List Attestation) : List AttestationData :=
  ((xs.map (·.data)) ++ (ys.map (·.data))).dedup

/-- The deltas contributed by the bucket of one `AttestationData` key. -/
def bucketDeltas (xs ys : List Attestation) (d : AttestationData) : List Delta :=
  compute_matching_att_deltas (index_by_attestation_data xs d)
    (index_by_attestation_data ys d)

namespace AttList

/-- `<&[Attestation<E>] as Distance>::delta`: bucket by vote data, solve each
bucket, concatenate and sort.  Always `Some`. -/
def delta (xs ys : List Attestation) : Option (List Delta) :=
  some (sort_deltas (((attDatas xs ys).map (bucketDeltas xs ys)).flatten))

/-- `<&[Attestation<E>] as Distance>::delta_to_distance`: sum of per-delta
costs. -/
def delta_to_distance (deltas : List Delta) : Nat :=
  (deltas.map Delta.total_distance).sum

/-- The `Distance::distance` default method at list type. -/
def distance (xs ys : List Attestation) : Option Nat :=
  (delta xs ys).map delta_to_distance

/-- `invert_delta`: swap the left/right fields of every element, then
re-sort. -/
def invert_delta (deltas : List Delta) : List Delta :=
  sort_deltas (deltas.map fun d =>
    match d with
    | .Modify left right pos_distance bit_distance =>
        .Modify right left pos_distance bit_distance
    | .InsertLeft index n => .InsertRight index n
    | .InsertRight index n => .InsertLeft index n)

end AttList

/-! ## Classifier and prune step (`src/main.rs`) -/

def SIGNIFICANCE_NUMERATOR : Nat := 2
def SIGNIFICANCE_DENOM : Nat := 1
def NUM_SLOTS_IN_MEMORY : Nat := 8

/-- The three classifier outcomes printed by `run`. -/
inductive Classification
  | likelyMatching (label : String) (distance : Nat)
  | likelySignificant (label : String) (distance : Nat)
      (secondLabel : String) (secondDistance : Nat)
  | tooCloseToCall (name : String) (distance : Nat)
      (secondName : String) (secondDistance : Nat)
  deriving DecidableEq, Repr

/-- The classifier section of `run`: sort the `(name, distance)` pairs with
`sort_unstable_by_key(|(_, distance)| *distance)` — by distance ONLY — then
compare the two closest entries (`distances.get(1).unwrap_or(&distances[0])`).
The Rust sort is unstable; on the two-element inputs used in the refutation
below its behaviour coincides with the stable sort used here. -/
def classify (labels : String → String) (distances : List (String × Nat)) :
    Option Classification :=
  match sortBy (fun a b => decide (a.2 ≤ b.2)) distances with
  | [] => none
  | (closest_name, closest_distance) :: rest =>
    let second := rest.headD (closest_name, closest_distance)
    let closest_label := labels closest_name
    let second_closest_label := labels second.1
    if closest_label = second_closest_label then
      some (.likelyMatching closest_label closest_distance)
    else if second.2 ≥ closest_distance * SIGNIFICANCE_NUMERATOR / SIGNIFICANCE_DENOM then
      some (.likelySignificant closest_label closest_distance
        second_closest_label second.2)
    else
      some (.tooCloseToCall closest_name closest_distance second.1 second.2)

/-- Lexicographic order on the characters of two names (by code point), for
the refinement reference below. -/
def charListLe : List Char → List Char → Bool
  | [], _ => true
  | _ :: _, [] => false
  | c :: cs, d :: ds =>
    decide (c.toNat < d.toNat) || (decide (c = d) && charListLe cs ds)

/-- Lexicographic order on names. -/
def strLe (s t : String) : Bool := charListLe s.data t.data

/-- The classifier as the spec describes it (refinement reference): identical
except that ties in distance are broken by name lexicographically. -/
def classifySpec (labels : String → String) (distances : List (String × Nat)) :
    Option Classification :=
  match sortBy
    (fun a b => decide (a.2 < b.2) || (decide (a.2 = b.2) && strLe a.1 b.1))
    distances with
  | [] => none
  | (closest_name, closest_distance) :: rest =>
    let second := rest.headD (closest_name, closest_distance)
    let closest_label := labels closest_name
    let second_closest_label := labels second.1
    if closest_label = second_closest_label then
      some (.likelyMatching closest_label closest_distance)
    else if second.2 ≥ closest_distance * SIGNIFICANCE_NUMERATOR / SIGNIFICANCE_DENOM then
      some (.likelySignificant closest_label closest_distance
        second_closest_label second.2)
    else
      some (.tooCloseToCall closest_name closest_distance second.1 second.2)

/-- The prune step of `run`:
`all_blocks.retain(|stored_slot, _| *stored_slot + NUM_SLOTS_IN_MEMORY >= slot)`.
The window map is modelled as its list of `(slot, entry)` pairs. -/
def pruneWindow {α : Type} (all_blocks : List (Nat × α)) (slot : Nat) :
    List (Nat × α) :=
  all_blocks.filter (fun e => decide (e.1 + NUM_SLOTS_IN_MEMORY ≥ slot))

/-! ## Wire selection (`src/node.rs`) -/

/-- Node configuration (`struct Node` in `src/config.rs`). -/
structure NodeConfig where
  name : String
  label : String
  url : String
  skip_randao_verification : Bool
  use_builder : Bool
  ssz : Bool
  v3 : Bool
  enabled : Bool
  builder_boost_factor : Option Nat
  deriving DecidableEq, Repr

/-- How a block-production response is requested and decoded. -/
inductive WireFormat
  | sszWithChainSpec
  | json
  deriving DecidableEq, Repr

/-- `Node::get_block` (legacy path):
`if self.config.ssz { get_block_ssz } else { get_block_json }`; the SSZ
branch decodes the bytes with the chain spec
(`BlockContents::from_ssz_bytes(&bytes, &self.spec)`). -/
def get_block_wire (config : NodeConfig) : WireFormat :=
  if config.ssz then .sszWithChainSpec else .json

/-- `Node::get_block_v3`: the `if self.config.ssz { todo!() } ...` dispatch is
commented out in the source; the function always calls `get_block_v3_json`,
regardless of the `ssz` flag. -/
def get_block_v3_wire (_config : NodeConfig) : WireFormat := .json

/-! ## Sink endpoint construction (`src/post.rs`) -/

/-- `struct PostEndpointConfig` in `src/config.rs`. -/
structure PostEndpointConfig where
  name : String
  url : String
  results_dir : Option String
  extra_data : Bool
  compare_rewards : Bool
  require_all : Bool
  require_same_parent : Bool
  deriving DecidableEq, Repr

/-- The fields of `struct PostEndpoint` in `src/post.rs` (the HTTP client
handle carries no state relevant here and is omitted). -/
structure PostEndpoint where
  name : String
  url : String
  results_dir : Option String
  compare_rewards : Bool
  require_all : Bool
  require_same_parent : Bool
  extra_data : Bool
  deriving DecidableEq, Repr

/-- `PostEndpoint::new`.  Note the source reads
`let name = config.url.clone(); let url = config.url.clone();` — the `name`
field of the endpoint is set from the config's `url`, not its `name`. -/
def PostEndpoint.new (config : PostEndpointConfig) : PostEndpoint :=
  { name := config.url
    url := config.url
    results_dir := config.results_dir
    compare_rewards := config.compare_rewards
    require_all := config.require_all
    require_same_parent := config.require_same_parent
    extra_data := config.extra_data }

/-! ## Counting lemmas for bitfields -/

theorem difference_nil : ∀ a : List Bool, difference a [] = a
  | [] => rfl
  | x :: xs => by rw [difference, difference_nil xs]

theorem length_difference : ∀ a b : List Bool, (difference a b).length = a.length
  | [], _ => rfl
  | _ :: xs, [] => by rw [difference, List.length_cons, List.length_cons,
      length_difference xs []]
  | _ :: xs, _ :: ys => by rw [difference, List.length_cons, List.length_cons,
      length_difference xs ys]

theorem getD_difference : ∀ (a b : List Bool) (i : Nat),
    (difference a b).getD i false = (a.getD i false && !(b.getD i false))
  | [], _, i => by simp [difference]
  | x :: xs, [], i => by
    rw [difference_nil, List.getD_nil]
    simp
  | x :: xs, y :: ys, 0 => by simp [difference]
  | x :: xs, y :: ys, i + 1 => by
    rw [difference]
    simpa using getD_difference xs ys i

theorem length_xorBits : ∀ a b : List Bool, (xorBits a b).length = max a.length b.length
  | [], b => by simp [xorBits]
  | x :: xs, [] => by simp [xorBits]
  | x :: xs, y :: ys => by
    rw [xorBits, List.length_cons, List.length_cons, List.length_cons,
      length_xorBits xs ys]
    omega

theorem getD_xorBits : ∀ (a b : List Bool) (i : Nat),
    (xorBits a b).getD i false = ((a.getD i false) != (b.getD i false))
  | [], b, i => by simp [xorBits]
  | x :: xs, [], i => by simp [xorBits]
  | x :: xs, y :: ys, 0 => by simp [xorBits]
  | x :: xs, y :: ys, i + 1 => by
    rw [xorBits]
    simpa using getD_xorBits xs ys i

theorem count_true_eq_sum : ∀ (l : List Bool) (M : Nat), l.length ≤ M →
    l.count true = ∑ i ∈ Finset.range M, (if l.getD i false then 1 else 0)
  | [], M, _ => by
    simp [List.getD_nil]
  | x :: xs, 0, h => by simp at h
  | x :: xs, M + 1, h => by
    rw [Finset.sum_range_succ']
    simp only [List.getD_cons_succ, List.getD_cons_zero]
    rw [← count_true_eq_sum xs M (by simpa using h)]
    cases x <;> simp [List.count_cons]

theorem num_set_bits_eq_sum (l : List Bool) (M : Nat) (h : l.length ≤ M) :
    num_set_bits l = ∑ i ∈ Finset.range M, (if l.getD i false then 1 else 0) :=
  count_true_eq_sum l M h

/-- The symmetric-difference cardinality of two bitfields, as computed by
`Attestation::delta` for comparable attestations. -/
def bitDist (a b : List Bool) : Nat :=
  num_set_bits (difference a b) + num_set_bits (difference b a)

theorem bitDist_eq_sum (a b : List Bool) (M : Nat)
    (hA : a.length ≤ M) (hB : b.length ≤ M) :
    bitDist a b =
      ∑ i ∈ Finset.range M, (if a.getD i false ≠ b.getD i false then 1 else 0) := by
  rw [bitDist, num_set_bits_eq_sum _ M (by rw [length_difference]; exact hA),
    num_set_bits_eq_sum _ M (by rw [length_difference]; exact hB),
    ← Finset.sum_add_distrib]
  refine Finset.sum_congr rfl fun i _ => ?_
  rw [getD_difference, getD_difference]
  cases a.getD i false <;> cases b.getD i false <;> simp

theorem bitDist_eq_xorCount (a b : List Bool) :
    bitDist a b = num_set_bits (xorBits a b) := by
  set M := max a.length b.length with hM
  rw [bitDist_eq_sum a b M (le_max_left _ _) (le_max_right _ _),
    num_set_bits_eq_sum _ M (by rw [length_xorBits])]
  refine Finset.sum_congr rfl fun i _ => ?_
  rw [getD_xorBits]
  cases a.getD i false <;> cases b.getD i false <;> simp

theorem bitDist_self (a : List Bool) : bitDist a a = 0 := by
  rw [bitDist_eq_sum a a a.length le_rfl le_rfl]
  simp

theorem bitDist_comm (a b : List Bool) : bitDist a b = bitDist b a :=
  Nat.add_comm _ _

theorem bitDist_triangle (a b c : List Bool) :
    bitDist a c ≤ bitDist a b + bitDist b c := by
  set M := max (max a.length b.length) c.length with hM
  rw [bitDist_eq_sum a c M (le_trans (le_max_left _ _) (le_max_left _ _))
      (le_max_right _ _),
    bitDist_eq_sum a b M (le_trans (le_max_left _ _) (le_max_left _ _))
      (le_trans (le_max_right _ _) (le_max_left _ _)),
    bitDist_eq_sum b c M (le_trans (le_max_right _ _) (le_max_left _ _))
      (le_max_right _ _),
    ← Finset.sum_add_distrib]
  refine Finset.sum_le_sum fun i _ => ?_
  cases a.getD i false <;> cases b.getD i false <;> cases c.getD i false <;> simp

theorem num_set_bits_le_bitDist_add (a b : List Bool) :
    num_set_bits a ≤ bitDist a b + num_set_bits b := by
  set M := max a.length b.length with hM
  rw [num_set_bits_eq_sum a M (le_max_left _ _),
    num_set_bits_eq_sum b M (le_max_right _ _),
    bitDist_eq_sum a b M (le_max_left _ _) (le_max_right _ _),
    ← Finset.sum_add_distrib]
  refine Finset.sum_le_sum fun i _ => ?_
  cases a.getD i false <;> cases b.getD i false <;> simp

theorem bitDist_le_add_counts (a b : List Bool) :
    bitDist a b ≤ num_set_bits a + num_set_bits b := by
  set M := max a.length b.length with hM
  rw [num_set_bits_eq_sum a M (le_max_left _ _),
    num_set_bits_eq_sum b M (le_max_right _ _),
    bitDist_eq_sum a b M (le_max_left _ _) (le_max_right _ _),
    ← Finset.sum_add_distrib]
  refine Finset.sum_le_sum fun i _ => ?_
  cases a.getD i false <;> cases b.getD i false <;> simp

theorem bitDist_eq_zero_iff (a b : List Bool) :
    bitDist a b = 0 ↔ ∀ i, a.getD i false = b.getD i false := by
  set M := max a.length b.length with hM
  rw [bitDist_eq_sum a b M (le_max_left _ _) (le_max_right _ _)]
  constructor
  · intro h i
    by_cases hi : i < M
    · by_contra hne
      have hpos : 0 < ∑ i ∈ Finset.range M,
          (if a.getD i false ≠ b.getD i false then 1 else 0) := by
        refine Finset.sum_pos' (fun j _ => by positivity) ⟨i, Finset.mem_range.mpr hi, ?_⟩
        rw [if_pos hne]
        exact one_pos
      omega
    · have hA : a.length ≤ i := le_trans (le_max_left _ _) (Nat.le_of_not_lt hi)
      have hB : b.length ≤ i := le_trans (le_max_right _ _) (Nat.le_of_not_lt hi)
      rw [List.getD_eq_default _ _ hA, List.getD_eq_default _ _ hB]
  · intro h
    refine Finset.sum_eq_zero fun i _ => ?_
    exact if_neg (fun hc => hc (h i))

/-! ## Single-attestation distance lemmas -/

theorem Attestation.distance_eq_bitDist (a b : Attestation) (h : a.data = b.data) :
    a.distance b = some (bitDist a.aggregation_bits b.aggregation_bits) := by
  simp [Attestation.distance, Attestation.delta, h, bitDist,
    Attestation.delta_to_distance]

theorem Attestation.distance_none_iff (a b : Attestation) :
    a.distance b = none ↔ a.data ≠ b.data := by
  by_cases h : a.data = b.data <;>
    simp [Attestation.distance, Attestation.delta, h]

theorem Attestation.distance_comm (a b : Attestation) :
    a.distance b = b.distance a := by
  by_cases h : a.data = b.data
  · rw [Attestation.distance_eq_bitDist a b h,
      Attestation.distance_eq_bitDist b a h.symm, bitDist_comm]
  · rw [(Attestation.distance_none_iff a b).mpr h,
      (Attestation.distance_none_iff b a).mpr (fun hba => h hba.symm)]

theorem Attestation.distance_getD (a b : Attestation) :
    (a.distance b).getD 0 =
      if a.data = b.data then bitDist a.aggregation_bits b.aggregation_bits
      else 0 := by
  by_cases h : a.data = b.data
  · rw [Attestation.distance_eq_bitDist a b h, if_pos h, Option.getD_some]
  · rw [(Attestation.distance_none_iff a b).mpr h, if_neg h, Option.getD_none]


/-! ## Assignment vectors: basic machinery -/

theorem argminFirst_eq_none {α : Type _} {f : α → Nat} :
    ∀ {l : List α}, argminFirst f l = none → l = []
  | [], _ => rfl
  | x :: xs, h => by
    rcases hx : argminFirst f xs with _ | b
    · simp [argminFirst, hx] at h
    · simp only [argminFirst, hx] at h
      by_cases hle : f x ≤ f b <;> simp [hle] at h

theorem argminFirst_mem {α : Type _} {f : α → Nat} :
    ∀ {l : List α} {a : α}, argminFirst f l = some a → a ∈ l
  | [], a, h => by simp [argminFirst] at h
  | x :: xs, a, h => by
    rcases hx : argminFirst f xs with _ | b
    · simp only [argminFirst, hx] at h
      obtain rfl := Option.some.inj h
      exact List.mem_cons_self x xs
    · simp only [argminFirst, hx] at h
      by_cases hle : f x ≤ f b
      · rw [if_pos hle] at h
        obtain rfl := Option.some.inj h
        exact List.mem_cons_self x xs
      · rw [if_neg hle] at h
        obtain rfl := Option.some.inj h
        exact List.mem_cons_of_mem x (argminFirst_mem hx)

theorem argminFirst_min {α : Type _} {f : α → Nat} :
    ∀ {l : List α} {a : α}, argminFirst f l = some a → ∀ b ∈ l, f a ≤ f b
  | [], a, h => by simp [argminFirst] at h
  | x :: xs, a, h => by
    rcases hx : argminFirst f xs with _ | c
    · simp only [argminFirst, hx] at h
      obtain rfl := Option.some.inj h
      obtain rfl : xs = [] := argminFirst_eq_none hx
      intro b hb
      obtain rfl := List.mem_singleton.mp hb
      exact le_rfl
    · simp only [argminFirst, hx] at h
      intro b hb
      rcases List.mem_cons.mp hb with rfl | hb'
      · by_cases hle : f b ≤ f c
        · rw [if_pos hle] at h
          obtain rfl := Option.some.inj h
          exact le_rfl
        · rw [if_neg hle] at h
          obtain rfl := Option.some.inj h
          exact le_of_lt (Nat.lt_of_not_le hle)
      · by_cases hle : f x ≤ f c
        · rw [if_pos hle] at h
          obtain rfl := Option.some.inj h
          exact le_trans hle (argminFirst_min hx b hb')
        · rw [if_neg hle] at h
          obtain rfl := Option.some.inj h
          exact argminFirst_min hx b hb'

theorem perm_of_mem_insertAll {α : Type _} {x : α} :
    ∀ {l σ : List α}, σ ∈ insertAll x l → σ.Perm (x :: l)
  | [], σ, h => by
    obtain rfl := List.mem_singleton.mp h
    exact List.Perm.refl _
  | y :: ys, σ, h => by
    rcases List.mem_cons.mp h with rfl | h'
    · exact List.Perm.refl _
    · obtain ⟨σ', hσ', rfl⟩ := List.mem_map.mp h'
      exact ((perm_of_mem_insertAll hσ').cons y).trans (List.Perm.swap x y ys)

theorem perm_of_mem_permsOf {α : Type _} :
    ∀ {l σ : List α}, σ ∈ permsOf l → σ.Perm l
  | [], σ, h => by
    obtain rfl := List.mem_singleton.mp h
    exact List.Perm.refl _
  | x :: xs, σ, h => by
    obtain ⟨L, hL, hσL⟩ := List.mem_flatten.mp h
    obtain ⟨τ, hτ, rfl⟩ := List.mem_map.mp hL
    exact (perm_of_mem_insertAll hσL).trans ((perm_of_mem_permsOf hτ).cons x)

theorem cons_mem_insertAll {α : Type _} (x : α) :
    ∀ l : List α, x :: l ∈ insertAll x l
  | [] => List.mem_singleton.mpr rfl
  | _ :: _ => List.mem_cons_self _ _

theorem mem_insertAll_erase {α : Type _} [DecidableEq α] {x : α} :
    ∀ {σ : List α}, x ∈ σ → σ ∈ insertAll x (σ.erase x)
  | [], h => absurd h (List.not_mem_nil x)
  | a :: rest, h => by
    by_cases ha : a = x
    · subst ha
      rw [List.erase_cons_head]
      exact cons_mem_insertAll a rest
    · have hx : x ∈ rest := by
        rcases List.mem_cons.mp h with rfl | h'
        · exact absurd rfl ha
        · exact h'
      rw [List.erase_cons_tail]
      · show a :: rest ∈ (x :: a :: rest.erase x) ::
          (insertAll x (rest.erase x)).map (a :: ·)
        exact List.mem_cons_of_mem _
          (List.mem_map.mpr ⟨rest, mem_insertAll_erase hx, rfl⟩)
      · simp [ha]

theorem mem_permsOf_of_perm {α : Type _} [DecidableEq α] :
    ∀ {l σ : List α}, σ.Perm l → σ ∈ permsOf l
  | [], σ, h => by
    rw [List.perm_nil.mp h]
    exact List.mem_singleton.mpr rfl
  | x :: xs, σ, h => by
    have hx : x ∈ σ := h.mem_iff.mpr (List.mem_cons_self x xs)
    have he : (σ.erase x).Perm xs := by
      have := h.erase x
      rw [List.erase_cons_head] at this
      exact this
    show σ ∈ ((permsOf xs).map (insertAll x)).flatten
    exact List.mem_flatten.mpr ⟨insertAll x (σ.erase x),
      List.mem_map.mpr ⟨σ.erase x, mem_permsOf_of_perm he, rfl⟩,
      mem_insertAll_erase hx⟩

theorem kuhn_munkres_min_perm (cost : List Nat → Nat) (n : Nat) :
    (kuhn_munkres_min cost n).Perm (List.range n) := by
  rw [kuhn_munkres_min]
  rcases h : argminFirst cost (permsOf (List.range n)) with _ | σ
  · obtain h' := argminFirst_eq_none h
    exact absurd (mem_permsOf_of_perm (List.Perm.refl (List.range n)))
      (h' ▸ List.not_mem_nil _)
  · rw [Option.getD_some]
    exact perm_of_mem_permsOf (argminFirst_mem h)

theorem kuhn_munkres_min_min (cost : List Nat → Nat) (n : Nat) :
    ∀ τ, τ.Perm (List.range n) →
      cost (kuhn_munkres_min cost n) ≤ cost τ := by
  intro τ hτ
  rw [kuhn_munkres_min]
  rcases h : argminFirst cost (permsOf (List.range n)) with _ | σ
  · obtain h' := argminFirst_eq_none h
    exact absurd (mem_permsOf_of_perm (List.Perm.refl (List.range n)))
      (h' ▸ List.not_mem_nil _)
  · rw [Option.getD_some]
    exact argminFirst_min h τ (mem_permsOf_of_perm hτ)

/-! ## Permutations of `List.range n` as lists -/

theorem perm_range_length {σ : List Nat} {n : Nat}
    (h : σ.Perm (List.range n)) : σ.length = n := by
  rw [h.length_eq, List.length_range]

theorem perm_range_getD {σ : List Nat} {n : Nat} (h : σ.Perm (List.range n))
    {k : Nat} (hk : k < n) :
    σ.getD k 0 = σ.get ⟨k, by rw [perm_range_length h]; exact hk⟩ := by
  rw [List.getD_eq_getElem?_getD,
    List.getElem?_eq_getElem (by rw [perm_range_length h]; exact hk),
    Option.getD_some]
  rfl

theorem perm_range_getD_lt {σ : List Nat} {n : Nat} (h : σ.Perm (List.range n))
    {k : Nat} (hk : k < n) : σ.getD k 0 < n := by
  rw [perm_range_getD h hk]
  exact List.mem_range.mp (h.subset (σ.get_mem _ _))

theorem perm_range_nodup {σ : List Nat} {n : Nat} (h : σ.Perm (List.range n)) :
    σ.Nodup :=
  (h.nodup_iff).mpr (List.nodup_range n)

theorem perm_range_getD_inj {σ : List Nat} {n : Nat} (h : σ.Perm (List.range n))
    {k1 k2 : Nat} (hk1 : k1 < n) (hk2 : k2 < n)
    (heq : σ.getD k1 0 = σ.getD k2 0) : k1 = k2 := by
  rw [perm_range_getD h hk1, perm_range_getD h hk2] at heq
  exact ((perm_range_nodup h).getElem_inj_iff).mp heq

theorem perm_range_indexOf_lt {σ : List Nat} {n : Nat} (h : σ.Perm (List.range n))
    {j : Nat} (hj : j < n) : List.indexOf j σ < n := by
  rw [← perm_range_length h]
  exact List.indexOf_lt_length.mpr (h.mem_iff.mpr (List.mem_range.mpr hj))

theorem perm_range_getD_indexOf {σ : List Nat} {n : Nat}
    (h : σ.Perm (List.range n)) {j : Nat} (hj : j < n) :
    σ.getD (List.indexOf j σ) 0 = j := by
  have hlt : List.indexOf j σ < σ.length :=
    List.indexOf_lt_length.mpr (h.mem_iff.mpr (List.mem_range.mpr hj))
  rw [perm_range_getD h (by rw [← perm_range_length h]; exact hlt)]
  exact List.indexOf_get hlt

theorem perm_range_indexOf_getD {σ : List Nat} {n : Nat}
    (h : σ.Perm (List.range n)) {k : Nat} (hk : k < n) :
    List.indexOf (σ.getD k 0) σ = k := by
  refine perm_range_getD_inj h
    (perm_range_indexOf_lt h (perm_range_getD_lt h hk)) hk ?_
  exact perm_range_getD_indexOf h (perm_range_getD_lt h hk)

/-- Reindexing a sum over `Finset.range n` along a list permutation of
`List.range n`. -/
theorem sum_range_comp_perm {M : Type _} [AddCommMonoid M] (f : Nat → M)
    {σ : List Nat} {n : Nat} (h : σ.Perm (List.range n)) :
    ∑ k ∈ Finset.range n, f (σ.getD k 0) = ∑ j ∈ Finset.range n, f j := by
  refine Finset.sum_nbij' (fun k => σ.getD k 0) (fun j => List.indexOf j σ)
    ?_ ?_ ?_ ?_ ?_
  · intro k hk
    exact Finset.mem_range.mpr (perm_range_getD_lt h (Finset.mem_range.mp hk))
  · intro j hj
    exact Finset.mem_range.mpr (perm_range_indexOf_lt h (Finset.mem_range.mp hj))
  · intro k hk
    exact perm_range_indexOf_getD h (Finset.mem_range.mp hk)
  · intro j hj
    exact perm_range_getD_indexOf h (Finset.mem_range.mp hj)
  · intro k _
    rfl

/-- The inverse assignment vector: position `j` holds the row assigned to
column `j`. -/
def invPerm (σ : List Nat) (n : Nat) : List Nat :=
  (List.range n).map (fun j => List.indexOf j σ)

theorem invPerm_length (σ : List Nat) (n : Nat) : (invPerm σ n).length = n := by
  rw [invPerm, List.length_map, List.length_range]

theorem invPerm_getD {σ : List Nat} {n : Nat} {j : Nat} (hj : j < n) :
    (invPerm σ n).getD j 0 = List.indexOf j σ := by
  rw [invPerm, List.getD_eq_getElem?_getD,
    List.getElem?_eq_getElem (by rw [List.length_map, List.length_range]; exact hj),
    Option.getD_some, List.getElem_map, List.getElem_range]

theorem invPerm_perm {σ : List Nat} {n : Nat} (h : σ.Perm (List.range n)) :
    (invPerm σ n).Perm (List.range n) := by
  rw [List.perm_ext_iff_of_nodup ?nd (List.nodup_range n)]
  case nd =>
    refine List.Nodup.map_on ?_ (List.nodup_range n)
    intro j1 h1 j2 h2 heq
    have e1 := perm_range_getD_indexOf h (List.mem_range.mp h1)
    have e2 := perm_range_getD_indexOf h (List.mem_range.mp h2)
    rw [← e1, ← e2, heq]
  intro a
  constructor
  · intro ha
    obtain ⟨j, hj, rfl⟩ := List.mem_map.mp ha
    exact List.mem_range.mpr
      (perm_range_indexOf_lt h (List.mem_range.mp hj))
  · intro ha
    have hlt := List.mem_range.mp ha
    refine List.mem_map.mpr ⟨σ.getD a 0, List.mem_range.mpr (perm_range_getD_lt h hlt), ?_⟩
    exact perm_range_indexOf_getD h hlt

/-! ## Cost-level lemmas for the bucket assignment -/

theorem matrixEntry_symm (atts1 atts2 : List (Nat × Attestation)) (i j : Nat) :
    matrixEntry atts2 atts1 j i = matrixEntry atts1 atts2 i j := by
  rcases h1 : atts1.get? i with _ | p <;> rcases h2 : atts2.get? j with _ | q <;>
    simp only [matrixEntry, h1, h2]
  rw [abs_diff, abs_diff, Nat.dist_comm, Attestation.distance_comm]

theorem assignCost_invPerm (atts1 atts2 : List (Nat × Attestation))
    {σ : List Nat} {n : Nat} (h : σ.Perm (List.range n)) :
    assignCost atts2 atts1 (invPerm σ n) = assignCost atts1 atts2 σ := by
  rw [assignCost, assignCost, invPerm_length, perm_range_length h,
    ← sum_range_comp_perm
      (fun j => matrixEntry atts2 atts1 j ((invPerm σ n).getD j 0)) h]
  refine Finset.sum_congr rfl fun k hk => ?_
  have hk' := Finset.mem_range.mp hk
  rw [invPerm_getD (perm_range_getD_lt h hk'), perm_range_indexOf_getD h hk',
    matrixEntry_symm]

/-- The assignment chosen for one bucket. -/
def bucketAssign (atts1 atts2 : List (Nat × Attestation)) : List Nat :=
  kuhn_munkres_min (assignCost atts1 atts2) (max atts1.length atts2.length)

/-- The cost of one bucket: the minimum assignment cost. -/
def bucketCost (atts1 atts2 : List (Nat × Attestation)) : Nat :=
  assignCost atts1 atts2 (bucketAssign atts1 atts2)

theorem bucketAssign_perm (atts1 atts2 : List (Nat × Attestation)) :
    (bucketAssign atts1 atts2).Perm
      (List.range (max atts1.length atts2.length)) :=
  kuhn_munkres_min_perm _ _

theorem bucketCost_le (atts1 atts2 : List (Nat × Attestation)) {τ : List Nat}
    (hτ : τ.Perm (List.range (max atts1.length atts2.length))) :
    bucketCost atts1 atts2 ≤ assignCost atts1 atts2 τ :=
  kuhn_munkres_min_min _ _ τ hτ

theorem compute_matching_att_deltas_eq (atts1 atts2 : List (Nat × Attestation)) :
    compute_matching_att_deltas atts1 atts2 =
      reconstructDeltas atts1 atts2 (bucketAssign atts1 atts2) := rfl

theorem bucketCost_symm_le (atts1 atts2 : List (Nat × Attestation)) :
    bucketCost atts2 atts1 ≤ bucketCost atts1 atts2 := by
  have h1 := bucketAssign_perm atts1 atts2
  have h2 : (invPerm (bucketAssign atts1 atts2)
      (max atts1.length atts2.length)).Perm
      (List.range (max atts2.length atts1.length)) := by
    rw [Nat.max_comm atts2.length atts1.length]
    exact invPerm_perm h1
  exact le_trans (bucketCost_le atts2 atts1 h2)
    (le_of_eq (assignCost_invPerm atts1 atts2 h1))

theorem bucketCost_symm (atts1 atts2 : List (Nat × Attestation)) :
    bucketCost atts2 atts1 = bucketCost atts1 atts2 :=
  le_antisymm (bucketCost_symm_le atts1 atts2) (bucketCost_symm_le atts2 atts1)

/-! ## The delta list realizes the assignment cost -/

theorem sum_listRange {M : Type _} [AddCommMonoid M] (f : Nat → M) :
    ∀ n, ((List.range n).map f).sum = ∑ k ∈ Finset.range n, f k
  | 0 => by simp
  | n + 1 => by
    rw [List.range_succ, List.map_append, List.sum_append, Finset.sum_range_succ,
      sum_listRange f n]
    simp

theorem total_distance_recon (atts1 atts2 : List (Nat × Attestation)) (i j : Nat) :
    Delta.total_distance
      (match atts1.get? i, atts2.get? j with
        | some p, some q =>
            Delta.Modify p.1 q.1 (abs_diff p.1 q.1) ((p.2.distance q.2).getD 0)
        | some p, none => Delta.InsertLeft p.1 (num_set_bits p.2.aggregation_bits)
        | none, some q => Delta.InsertRight q.1 (num_set_bits q.2.aggregation_bits)
        | none, none => Delta.Modify 0 0 0 0) = matrixEntry atts1 atts2 i j := by
  unfold matrixEntry
  rcases atts1.get? i with _ | p <;> rcases atts2.get? j with _ | q <;> rfl

theorem reconstructDeltas_sum (atts1 atts2 : List (Nat × Attestation))
    (σ : List Nat) :
    ((reconstructDeltas atts1 atts2 σ).map Delta.total_distance).sum =
      assignCost atts1 atts2 σ := by
  rw [reconstructDeltas, List.map_map, sum_listRange, assignCost]
  exact Finset.sum_congr rfl fun k _ =>
    total_distance_recon atts1 atts2 k (σ.getD k 0)

theorem orderedInsert_perm {α : Type _} (le : α → α → Bool) (a : α) :
    ∀ l : List α, (orderedInsert le a l).Perm (a :: l)
  | [] => List.Perm.refl _
  | b :: bs => by
    rw [orderedInsert]
    by_cases h : le a b = true
    · rw [if_pos h]
    · rw [if_neg h]
      exact ((orderedInsert_perm le a bs).cons b).trans (List.Perm.swap a b bs)

theorem sortBy_perm {α : Type _} (le : α → α → Bool) :
    ∀ l : List α, (sortBy le l).Perm l
  | [] => List.Perm.refl _
  | a :: as_ =>
    (orderedInsert_perm le a (sortBy le as_)).trans ((sortBy_perm le as_).cons a)

theorem AttList.delta_to_distance_sort (l : List Delta) :
    AttList.delta_to_distance (sort_deltas l) = AttList.delta_to_distance l := by
  rw [AttList.delta_to_distance, AttList.delta_to_distance]
  exact List.Perm.sum_eq (List.Perm.map _ (sortBy_perm Delta.keyLe l))

theorem AttList.delta_to_distance_invert (l : List Delta) :
    AttList.delta_to_distance (AttList.invert_delta l) =
      AttList.delta_to_distance l := by
  rw [AttList.invert_delta, AttList.delta_to_distance_sort,
    AttList.delta_to_distance, AttList.delta_to_distance, List.map_map]
  refine congrArg List.sum (List.map_congr_left fun d _ => ?_)
  rcases d <;> rfl

/-- The scalar distance decomposes as the sum of per-bucket minimum assignment
costs. -/
theorem AttList.distance_eq_bucketSum (xs ys : List Attestation) :
    AttList.distance xs ys = some (((attDatas xs ys).map (fun d =>
      bucketCost (index_by_attestation_data xs d)
        (index_by_attestation_data ys d))).sum) := by
  rw [AttList.distance, AttList.delta, Option.map_some']
  refine congrArg some ?_
  rw [AttList.delta_to_distance_sort, AttList.delta_to_distance,
    List.map_flatten, List.sum_flatten, List.map_map, List.map_map]
  refine congrArg List.sum (List.map_congr_left fun d _ => ?_)
  show ((bucketDeltas xs ys d).map Delta.total_distance).sum = _
  rw [bucketDeltas, compute_matching_att_deltas_eq, reconstructDeltas_sum]
  rfl

theorem AttList.distance_eq_finsetSum (xs ys : List Attestation) :
    AttList.distance xs ys = some (∑ d ∈ (attDatas xs ys).toFinset,
      bucketCost (index_by_attestation_data xs d)
        (index_by_attestation_data ys d)) := by
  rw [AttList.distance_eq_bucketSum]
  refine congrArg some ?_
  exact (List.sum_toFinset _ (List.nodup_dedup _)).symm

/-! ## Empty and singleton buckets -/

theorem sum_range_get? {β : Type _} {M : Type _} [AddCommMonoid M]
    (f : β → M) : ∀ l : List β,
    ∑ k ∈ Finset.range l.length, ((l.get? k).elim 0 f) = (l.map f).sum
  | [] => by simp
  | x :: xs => by
    rw [List.length_cons, Finset.sum_range_succ']
    simp only [List.get?_cons_succ, List.get?_cons_zero]
    rw [sum_range_get? f xs, List.map_cons, List.sum_cons]
    exact add_comm _ _

theorem bucketCost_right_nil (atts1 : List (Nat × Attestation)) :
    bucketCost atts1 [] =
      (atts1.map (fun p => num_set_bits p.2.aggregation_bits + INDEL_COST)).sum := by
  have hperm := bucketAssign_perm atts1 []
  rw [bucketCost, assignCost, perm_range_length hperm]
  simp only [List.length_nil, Nat.max_zero]
  rw [← sum_range_get? (fun p => num_set_bits p.2.aggregation_bits + INDEL_COST) atts1]
  refine Finset.sum_congr rfl fun k hk => ?_
  have hk' : k < atts1.length := Finset.mem_range.mp hk
  unfold matrixEntry
  rcases h1 : atts1.get? k with _ | p
  · rw [List.get?_eq_getElem?, List.getElem?_eq_getElem hk'] at h1
    exact absurd h1 (by simp)
  · rfl

theorem bucketCost_left_nil (atts2 : List (Nat × Attestation)) :
    bucketCost [] atts2 =
      (atts2.map (fun p => num_set_bits p.2.aggregation_bits + INDEL_COST)).sum := by
  rw [bucketCost_symm, bucketCost_right_nil]

theorem bucketCost_pair (p q : Nat × Attestation) :
    bucketCost [p] [q] = abs_diff p.1 q.1 + (p.2.distance q.2).getD 0 := by
  have hperm := bucketAssign_perm [p] [q]
  simp only [List.length_singleton, Nat.max_self] at hperm
  obtain hσ : bucketAssign [p] [q] = [0] := by
    have := List.perm_singleton.mp (by simpa [List.range_succ] using hperm)
    exact this
  rw [bucketCost, hσ, assignCost]
  simp [matrixEntry]

/-! ## Partial matchings between buckets

The assignment minimum of one bucket is analysed through partial matchings:
an injective partial map from left positions to right positions.  Matched
pairs pay the modification cost, unmatched elements on either side pay the
indel cost.  Every permutation of the padded square matrix induces a matching
of the same cost; conversely (when position distances are bounded by
`2 * INDEL_COST`) every matching can be completed to a permutation of no
greater cost.  Matchings compose, which yields the triangle inequality. -/

/-- Default element for `List.getD` on bucket lists. -/
def dPA : Nat × Attestation := (0, ⟨⟨0, 0, 0, ⟨0, 0⟩, ⟨0, 0⟩⟩, []⟩)

/-- Indel cost of one bucket element. -/
def indelCost (p : Nat × Attestation) : Nat :=
  num_set_bits p.2.aggregation_bits + INDEL_COST

/-- Modification cost of a pair of bucket elements (position displacement plus
bitfield symmetric difference). -/
def modCost (p q : Nat × Attestation) : Nat :=
  Nat.dist p.1 q.1 + bitDist p.2.aggregation_bits q.2.aggregation_bits

theorem modCost_comm (p q : Nat × Attestation) : modCost p q = modCost q p := by
  rw [modCost, modCost, Nat.dist_comm, bitDist_comm]

theorem modCost_triangle (p q r : Nat × Attestation) :
    modCost p r ≤ modCost p q + modCost q r := by
  rw [modCost, modCost, modCost]
  have h1 := Nat.dist.triangle_inequality p.1 q.1 r.1
  have h2 := bitDist_triangle p.2.aggregation_bits q.2.aggregation_bits
    r.2.aggregation_bits
  omega

theorem indelCost_le_modCost_add (p q : Nat × Attestation) :
    indelCost p ≤ modCost p q + indelCost q := by
  rw [indelCost, indelCost, modCost]
  have := num_set_bits_le_bitDist_add p.2.aggregation_bits q.2.aggregation_bits
  omega

theorem modCost_le_indelCosts (p q : Nat × Attestation)
    (h : Nat.dist p.1 q.1 ≤ 2 * INDEL_COST) :
    modCost p q ≤ indelCost p + indelCost q := by
  rw [indelCost, indelCost, modCost]
  have := bitDist_le_add_counts p.2.aggregation_bits q.2.aggregation_bits
  omega

/-- `m` is an injective partial matching from left positions `< a` to right
positions `< c`. -/
def IsMatching (a c : Nat) (m : Nat → Option Nat) : Prop :=
  (∀ i j, i < a → m i = some j → j < c) ∧
  (∀ i1 i2 j, i1 < a → i2 < a → m i1 = some j → m i2 = some j → i1 = i2)

/-- The cost of a partial matching. -/
def pmCost (A C : List (Nat × Attestation)) (m : Nat → Option Nat) : Nat :=
  (∑ i ∈ Finset.range A.length,
    (m i).elim (indelCost (A.getD i dPA))
      (fun j => modCost (A.getD i dPA) (C.getD j dPA)))
  + (∑ j ∈ Finset.range C.length,
      if ((Finset.range A.length).filter (fun i => m i = some j)).Nonempty then 0
      else indelCost (C.getD j dPA))

theorem get?_eq_some_getD {β : Type _} (l : List β) (d : β) {k : Nat}
    (hk : k < l.length) : l.get? k = some (l.getD k d) := by
  rw [List.get?_eq_getElem?, List.getElem?_eq_getElem hk,
    List.getD_eq_getElem?_getD, List.getElem?_eq_getElem hk, Option.getD_some]

theorem get?_eq_none_of_le {β : Type _} {l : List β} {k : Nat}
    (hk : l.length ≤ k) : l.get? k = none := by
  rw [List.get?_eq_getElem?, List.getElem?_eq_none_iff]
  exact hk

/-- The `(some, some)` matrix cell is the modification cost, provided the
attestations carry the same vote data. -/
theorem matrixEntry_eq_modCost (A C : List (Nat × Attestation))
    (hd : ∀ p ∈ A, ∀ q ∈ C, p.2.data = q.2.data) {i j : Nat}
    (hi : i < A.length) (hj : j < C.length) :
    matrixEntry A C i j = modCost (A.getD i dPA) (C.getD j dPA) := by
  unfold matrixEntry
  rw [get?_eq_some_getD A dPA hi, get?_eq_some_getD C dPA hj]
  have hdij : (A.getD i dPA).2.data = (C.getD j dPA).2.data := by
    refine hd _ ?_ _ ?_
    · rw [List.getD_eq_getElem?_getD, List.getElem?_eq_getElem hi, Option.getD_some]
      exact List.getElem_mem _
    · rw [List.getD_eq_getElem?_getD, List.getElem?_eq_getElem hj, Option.getD_some]
      exact List.getElem_mem _
  show abs_diff (A.getD i dPA).1 (C.getD j dPA).1 +
      ((A.getD i dPA).2.distance (C.getD j dPA).2).getD 0 = _
  rw [Attestation.distance_getD, if_pos hdij, abs_diff, modCost]

theorem matrixEntry_left_out (A C : List (Nat × Attestation)) {i j : Nat}
    (hi : A.length ≤ i) (hj : j < C.length) :
    matrixEntry A C i j = indelCost (C.getD j dPA) := by
  unfold matrixEntry
  rw [get?_eq_none_of_le hi, get?_eq_some_getD C dPA hj]
  rfl

theorem matrixEntry_right_out (A C : List (Nat × Attestation)) {i j : Nat}
    (hi : i < A.length) (hj : C.length ≤ j) :
    matrixEntry A C i j = indelCost (A.getD i dPA) := by
  unfold matrixEntry
  rw [get?_eq_some_getD A dPA hi, get?_eq_none_of_le hj]
  rfl

theorem sum_ite_not_eq_filter {β : Type _} [AddCommMonoid β] (s : Finset Nat)
    (P : Nat → Prop) [DecidablePred P] (f : Nat → β) :
    ∑ j ∈ s, (if P j then 0 else f j) = ∑ j ∈ s.filter (fun j => ¬ P j), f j := by
  rw [Finset.sum_filter]
  refine Finset.sum_congr rfl fun j _ => ?_
  by_cases h : P j <;> simp [h]

/-- Every assignment of the padded square matrix induces a partial matching of
the same cost. -/
theorem exists_matching_of_perm (A C : List (Nat × Attestation))
    (hd : ∀ p ∈ A, ∀ q ∈ C, p.2.data = q.2.data)
    {σ : List Nat} (hσ : σ.Perm (List.range (max A.length C.length))) :
    ∃ m, IsMatching A.length C.length m ∧ pmCost A C m = assignCost A C σ := by
  set a := A.length with ha_def
  set c := C.length with hc_def
  set n := max a c with hn
  have ha_le : a ≤ n := le_max_left _ _
  have hc_le : c ≤ n := le_max_right _ _
  set m : Nat → Option Nat :=
    fun i => if i < a ∧ σ.getD i 0 < c then some (σ.getD i 0) else none with hm
  have hm_some : ∀ {i j}, m i = some j → i < a ∧ σ.getD i 0 = j ∧ j < c := by
    intro i j hij
    simp only [hm] at hij
    by_cases h : i < a ∧ σ.getD i 0 < c
    · rw [if_pos h] at hij
      obtain rfl := Option.some.inj hij
      exact ⟨h.1, rfl, h.2⟩
    · rw [if_neg h] at hij
      exact absurd hij (by simp)
  have hmatch : IsMatching a c m := by
    constructor
    · intro i j hi hj
      exact (hm_some hj).2.2
    · intro i1 i2 j h1 h2 hj1 hj2
      obtain ⟨_, e1, hjc⟩ := hm_some hj1
      obtain ⟨_, e2, _⟩ := hm_some hj2
      exact perm_range_getD_inj hσ (lt_of_lt_of_le h1 ha_le)
        (lt_of_lt_of_le h2 ha_le) (e1.trans e2.symm)
  refine ⟨m, hmatch, ?_⟩
  have hσc : ∀ {k}, a ≤ k → k < n → σ.getD k 0 < c := by
    intro k hak hkn
    have hc_eq : c = n := by omega
    rw [hc_eq]
    exact perm_range_getD_lt hσ hkn
  rw [assignCost, perm_range_length hσ, pmCost]
  have hsplit : ∑ k ∈ Finset.range n, matrixEntry A C k (σ.getD k 0) =
      (∑ k ∈ Finset.range a, matrixEntry A C k (σ.getD k 0)) +
      (∑ k ∈ Finset.Ico a n, matrixEntry A C k (σ.getD k 0)) := by
    rw [Finset.range_eq_Ico]
    exact (Finset.sum_Ico_consecutive _ (Nat.zero_le a) ha_le).symm
  rw [hsplit]
  have hleft : ∑ k ∈ Finset.range a,
      (m k).elim (indelCost (A.getD k dPA))
        (fun j => modCost (A.getD k dPA) (C.getD j dPA)) =
      ∑ k ∈ Finset.range a, matrixEntry A C k (σ.getD k 0) := by
    refine Finset.sum_congr rfl fun k hk => ?_
    have hka : k < a := Finset.mem_range.mp hk
    by_cases hkc : σ.getD k 0 < c
    · have : m k = some (σ.getD k 0) := by
        simp only [hm]
        exact if_pos ⟨hka, hkc⟩
      rw [this, Option.elim_some, matrixEntry_eq_modCost A C hd hka hkc]
    · have : m k = none := by
        simp only [hm]
        exact if_neg (by tauto)
      rw [this, Option.elim_none,
        matrixEntry_right_out A C hka (Nat.le_of_not_lt hkc)]
  have hright : ∑ j ∈ Finset.range c,
      (if ((Finset.range a).filter (fun i => m i = some j)).Nonempty then 0
        else indelCost (C.getD j dPA)) =
      ∑ k ∈ Finset.Ico a n, matrixEntry A C k (σ.getD k 0) := by
    rw [sum_ite_not_eq_filter]
    have hval : ∀ k ∈ Finset.Ico a n,
        matrixEntry A C k (σ.getD k 0) = indelCost (C.getD (σ.getD k 0) dPA) := by
      intro k hk
      obtain ⟨hak, hkn⟩ := Finset.mem_Ico.mp hk
      exact matrixEntry_left_out A C hak (hσc hak hkn)
    have hbij : ∑ k ∈ Finset.Ico a n, indelCost (C.getD (σ.getD k 0) dPA) =
        ∑ j ∈ (Finset.range c).filter
            (fun j => ¬ ((Finset.range a).filter (fun i => m i = some j)).Nonempty),
          indelCost (C.getD j dPA) := by
      refine Finset.sum_nbij' (fun k => σ.getD k 0) (fun j => List.indexOf j σ)
        ?_ ?_ ?_ ?_ ?_
      · -- σ maps virtual rows onto unmatched columns
        intro k hk
        obtain ⟨hak, hkn⟩ := Finset.mem_Ico.mp hk
        refine Finset.mem_filter.mpr ⟨Finset.mem_range.mpr (hσc hak hkn), ?_⟩
        rintro ⟨i, hi⟩
        obtain ⟨hia, hmi⟩ := Finset.mem_filter.mp hi
        obtain ⟨hia', ei, _⟩ := hm_some hmi
        have : i = k := perm_range_getD_inj hσ (lt_of_lt_of_le hia' ha_le) hkn ei
        omega
      · -- indexOf maps unmatched columns into Ico a n
        intro j hj
        obtain hj' := Finset.mem_filter.mp hj
        have hjc : j < c := Finset.mem_range.mp hj'.1
        have hjn : j < n := lt_of_lt_of_le hjc hc_le
        refine Finset.mem_Ico.mpr ⟨?_, perm_range_indexOf_lt hσ hjn⟩
        by_contra hlt
        push_neg at hlt
        refine hj'.2 ⟨List.indexOf j σ, Finset.mem_filter.mpr
          ⟨Finset.mem_range.mpr hlt, ?_⟩⟩
        simp only [hm]
        rw [if_pos ⟨hlt, by rw [perm_range_getD_indexOf hσ hjn]; exact hjc⟩,
          perm_range_getD_indexOf hσ hjn]
      · intro k hk
        obtain ⟨_, hkn⟩ := Finset.mem_Ico.mp hk
        exact perm_range_indexOf_getD hσ hkn
      · intro j hj
        obtain hj' := Finset.mem_filter.mp hj
        exact perm_range_getD_indexOf hσ
          (lt_of_lt_of_le (Finset.mem_range.mp hj'.1) hc_le)
      · intro k _
        rfl
    rw [← hbij]
    exact (Finset.sum_congr rfl hval).symm
  rw [hleft, hright]

/-- Matchings compose; the composite costs no more than the sum
(the triangle inequality at the level of one bucket, matching form). -/
theorem pmCost_comp (A B C : List (Nat × Attestation)) (f g : Nat → Option Nat)
    (hf : IsMatching A.length B.length f) (hg : IsMatching B.length C.length g) :
    IsMatching A.length C.length (fun i => (f i).bind g) ∧
      pmCost A C (fun i => (f i).bind g) ≤ pmCost A B f + pmCost B C g := by
  set a := A.length with ha_def
  set b := B.length with hb_def
  set c := C.length with hc_def
  set h : Nat → Option Nat := fun i => (f i).bind g with hh
  have hbind : ∀ {i k}, h i = some k → ∃ j, f i = some j ∧ g j = some k := by
    intro i k hik
    simp only [hh] at hik
    rcases hfi : f i with _ | j
    · rw [hfi] at hik
      exact absurd hik (by simp)
    · rw [hfi] at hik
      exact ⟨j, rfl, hik⟩
  have hmatch : IsMatching a c h := by
    constructor
    · intro i k hi hk
      obtain ⟨j, hij, hjk⟩ := hbind hk
      exact hg.1 j k (hf.1 i j hi hij) hjk
    · intro i1 i2 k h1 h2 hk1 hk2
      obtain ⟨j1, hij1, hjk1⟩ := hbind hk1
      obtain ⟨j2, hij2, hjk2⟩ := hbind hk2
      have hj1b : j1 < b := hf.1 i1 j1 h1 hij1
      have hj2b : j2 < b := hf.1 i2 j2 h2 hij2
      obtain rfl : j1 = j2 := hg.2 j1 j2 k hj1b hj2b hjk1 hjk2
      exact hf.2 i1 i2 j1 h1 h2 hij1 hij2
  refine ⟨hmatch, ?_⟩
  -- named summands
  set termF : Nat → Nat := fun i => (f i).elim (indelCost (A.getD i dPA))
    (fun j => modCost (A.getD i dPA) (B.getD j dPA)) with htermF
  set termG : Nat → Nat := fun j => (g j).elim (indelCost (B.getD j dPA))
    (fun k => modCost (B.getD j dPA) (C.getD k dPA)) with htermG
  set termH : Nat → Nat := fun i => (h i).elim (indelCost (A.getD i dPA))
    (fun k => modCost (A.getD i dPA) (C.getD k dPA)) with htermH
  set mF : Nat → Prop := fun j =>
    ((Finset.range a).filter (fun i => f i = some j)).Nonempty with hmF
  set mG : Nat → Prop := fun k =>
    ((Finset.range b).filter (fun j => g j = some k)).Nonempty with hmG
  set mH : Nat → Prop := fun k =>
    ((Finset.range a).filter (fun i => h i = some k)).Nonempty with hmH
  -- Bound 1: pointwise bound on the left sum of h
  have bound1 : ∑ i ∈ Finset.range a, termH i ≤
      (∑ i ∈ Finset.range a, termF i) +
      (∑ i ∈ Finset.range a, (f i).elim 0 (fun j => termG j)) := by
    rw [← Finset.sum_add_distrib]
    refine Finset.sum_le_sum fun i hi => ?_
    have hia : i < a := Finset.mem_range.mp hi
    rcases hfi : f i with _ | j
    · have hhi : h i = none := by simp [hh, hfi]
      simp only [htermH, htermF, hhi, hfi, Option.elim_none, Option.elim_some]
      exact Nat.le_add_right _ _
    · have hjb : j < b := hf.1 i j hia hfi
      rcases hgj : g j with _ | k
      · have hhi : h i = none := by simp [hh, hfi, hgj]
        simp only [htermH, htermF, htermG, hhi, hfi, hgj, Option.elim_none,
          Option.elim_some]
        exact indelCost_le_modCost_add _ _
      · have hhi : h i = some k := by simp [hh, hfi, hgj]
        simp only [htermH, htermF, htermG, hhi, hfi, hgj, Option.elim_some]
        exact modCost_triangle _ _ _
  -- Bound 2: the composite through-terms are the matched g-terms
  have bound2 : ∑ i ∈ Finset.range a, (f i).elim 0 (fun j => termG j) =
      ∑ j ∈ Finset.range b, (if mF j then termG j else 0) := by
    have inner : ∀ i ∈ Finset.range a, (f i).elim 0 (fun j => termG j) =
        ∑ j ∈ Finset.range b, (if f i = some j then termG j else 0) := by
      intro i hi
      have hia : i < a := Finset.mem_range.mp hi
      rcases hfi : f i with _ | j0
      · rw [Option.elim_none]
        exact (Finset.sum_eq_zero fun j _ => if_neg (by simp)).symm
      · rw [Option.elim_some]
        refine ((Finset.sum_eq_single_of_mem j0
            (Finset.mem_range.mpr (hf.1 i j0 hia hfi))
            (fun j _ hne => if_neg
              (fun hc' => hne ((Option.some.inj hc').symm)))).trans
          (if_pos rfl)).symm
    rw [Finset.sum_congr rfl inner, Finset.sum_comm]
    refine Finset.sum_congr rfl fun j hj => ?_
    by_cases hmFj : mF j
    · rw [if_pos hmFj]
      obtain ⟨i0, hi0⟩ := hmFj
      obtain ⟨hi0a, hfi0⟩ := Finset.mem_filter.mp hi0
      refine (Finset.sum_eq_single_of_mem i0 hi0a ?_).trans (if_pos hfi0)
      intro i hi hne
      refine if_neg fun hc' => hne ?_
      exact hf.2 i i0 j (Finset.mem_range.mp hi) (Finset.mem_range.mp hi0a) hc' hfi0
    · rw [if_neg hmFj]
      refine Finset.sum_eq_zero fun i hi => ?_
      refine if_neg fun hc' => hmFj ⟨i, Finset.mem_filter.mpr ⟨hi, hc'⟩⟩
  -- Bound 3: unmatched columns of h are covered by unmatched columns of g
  -- and by g-terms of f-unmatched middles
  have bound3 : ∑ k ∈ Finset.range c,
      (if mH k then 0 else indelCost (C.getD k dPA)) ≤
      (∑ k ∈ Finset.range c, (if mG k then 0 else indelCost (C.getD k dPA))) +
      (∑ j ∈ Finset.range b,
        (if mF j then 0 else (indelCost (B.getD j dPA) + termG j))) := by
    have step : ∀ k ∈ Finset.range c,
        (if mH k then 0 else indelCost (C.getD k dPA)) ≤
        (if mG k then 0 else indelCost (C.getD k dPA)) +
        (∑ j ∈ Finset.range b,
          (if (¬ mF j ∧ g j = some k) then
            (indelCost (B.getD j dPA) + termG j) else 0)) := by
      intro k _
      by_cases hmHk : mH k
      · rw [if_pos hmHk]
        exact Nat.zero_le _
      · rw [if_neg hmHk]
        by_cases hmGk : mG k
        · obtain ⟨j0, hj0⟩ := hmGk
          obtain ⟨hj0b, hgj0⟩ := Finset.mem_filter.mp hj0
          have hnmF : ¬ mF j0 := by
            rintro ⟨i0, hi0⟩
            obtain ⟨hi0a, hfi0⟩ := Finset.mem_filter.mp hi0
            refine hmHk ⟨i0, Finset.mem_filter.mpr ⟨hi0a, ?_⟩⟩
            simp [hh, hfi0, hgj0]
          have hterm : indelCost (C.getD k dPA) ≤
              indelCost (B.getD j0 dPA) + termG j0 := by
            simp only [htermG, hgj0, Option.elim_some]
            have := indelCost_le_modCost_add (C.getD k dPA) (B.getD j0 dPA)
            rw [modCost_comm] at this
            omega
          refine le_trans hterm (le_add_left ?_)
          refine le_trans (le_of_eq ?_)
            (Finset.single_le_sum (fun j _ => Nat.zero_le _) hj0b)
          rw [if_pos ⟨hnmF, hgj0⟩]
        · rw [if_neg hmGk]
          exact Nat.le_add_right _ _
    refine le_trans (Finset.sum_le_sum step) ?_
    rw [Finset.sum_add_distrib]
    refine Nat.add_le_add le_rfl ?_
    rw [Finset.sum_comm]
    refine Finset.sum_le_sum fun j hj => ?_
    have hjb : j < b := Finset.mem_range.mp hj
    by_cases hmFj : mF j
    · rw [if_pos hmFj]
      refine le_of_eq (Finset.sum_eq_zero fun k _ => if_neg ?_)
      rintro ⟨hn, _⟩
      exact hn hmFj
    · rw [if_neg hmFj]
      rcases hgj : g j with _ | k0
      · refine le_trans (le_of_eq (Finset.sum_eq_zero fun k _ => if_neg ?_))
          (Nat.zero_le _)
        rintro ⟨_, hc'⟩
        exact absurd hc' (by simp)
      · have hk0c : k0 < c := hg.1 j k0 hjb hgj
        refine le_of_eq ((Finset.sum_eq_single_of_mem k0
          (Finset.mem_range.mpr hk0c) ?_).trans ?_)
        · intro k _ hne
          refine if_neg ?_
          rintro ⟨_, hc'⟩
          exact hne ((Option.some.inj hc').symm)
        · exact if_pos ⟨hmFj, rfl⟩
  -- middle regrouping
  have regroup : (∑ j ∈ Finset.range b, (if mF j then termG j else 0)) +
      (∑ j ∈ Finset.range b,
        (if mF j then 0 else (indelCost (B.getD j dPA) + termG j))) =
      (∑ j ∈ Finset.range b, termG j) +
      (∑ j ∈ Finset.range b, (if mF j then 0 else indelCost (B.getD j dPA))) := by
    rw [← Finset.sum_add_distrib, ← Finset.sum_add_distrib]
    refine Finset.sum_congr rfl fun j _ => ?_
    by_cases hmFj : mF j
    · simp [hmFj]
    · simp [hmFj]
      omega
  -- assemble
  have eH : pmCost A C h = (∑ i ∈ Finset.range a, termH i) +
      (∑ k ∈ Finset.range c, (if mH k then 0 else indelCost (C.getD k dPA))) := rfl
  have eF : pmCost A B f = (∑ i ∈ Finset.range a, termF i) +
      (∑ j ∈ Finset.range b, (if mF j then 0 else indelCost (B.getD j dPA))) := rfl
  have eG : pmCost B C g = (∑ j ∈ Finset.range b, termG j) +
      (∑ k ∈ Finset.range c, (if mG k then 0 else indelCost (C.getD k dPA))) := rfl
  rw [eH, eF, eG]
  omega

/-- Pairing one unmatched left element with one unmatched right element never
increases the matching cost, provided position displacements are bounded by
`2 * INDEL_COST`. -/
theorem pmCost_pair_step (A C : List (Nat × Attestation)) (m : Nat → Option Nat)
    (hm : IsMatching A.length C.length m)
    (Hb : ∀ i < A.length, ∀ j < C.length,
      Nat.dist (A.getD i dPA).1 (C.getD j dPA).1 ≤ 2 * INDEL_COST)
    {i0 j0 : Nat} (hi0 : i0 < A.length) (hj0 : j0 < C.length)
    (hmi0 : m i0 = none)
    (hum : ¬ ((Finset.range A.length).filter (fun i => m i = some j0)).Nonempty) :
    IsMatching A.length C.length (fun i => if i = i0 then some j0 else m i) ∧
      pmCost A C (fun i => if i = i0 then some j0 else m i) ≤ pmCost A C m := by
  set a := A.length with ha_def
  set c := C.length with hc_def
  set m' : Nat → Option Nat := fun i => if i = i0 then some j0 else m i with hm'
  have hm'_at : ∀ i, i ≠ i0 → m' i = m i := by
    intro i hi
    simp only [hm']
    exact if_neg hi
  have hm'_i0 : m' i0 = some j0 := by
    simp [hm']
  have hmatch : IsMatching a c m' := by
    constructor
    · intro i j hi hj
      by_cases hii : i = i0
      · subst hii
        rw [hm'_i0] at hj
        obtain rfl := Option.some.inj hj
        exact hj0
      · rw [hm'_at i hii] at hj
        exact hm.1 i j hi hj
    · intro i1 i2 j h1 h2 hj1 hj2
      by_cases e1 : i1 = i0 <;> by_cases e2 : i2 = i0
      · rw [e1, e2]
      · subst e1
        rw [hm'_i0] at hj1
        obtain rfl := Option.some.inj hj1
        rw [hm'_at i2 e2] at hj2
        exact absurd ⟨i2, Finset.mem_filter.mpr ⟨Finset.mem_range.mpr h2, hj2⟩⟩ hum
      · subst e2
        rw [hm'_i0] at hj2
        obtain rfl := Option.some.inj hj2
        rw [hm'_at i1 e1] at hj1
        exact absurd ⟨i1, Finset.mem_filter.mpr ⟨Finset.mem_range.mpr h1, hj1⟩⟩ hum
      · rw [hm'_at i1 e1] at hj1
        rw [hm'_at i2 e2] at hj2
        exact hm.2 i1 i2 j h1 h2 hj1 hj2
  refine ⟨hmatch, ?_⟩
  have hi0mem : i0 ∈ Finset.range a := Finset.mem_range.mpr hi0
  have hj0mem : j0 ∈ Finset.range c := Finset.mem_range.mpr hj0
  -- left sums
  have hleft : ∑ i ∈ Finset.range a,
      (m' i).elim (indelCost (A.getD i dPA))
        (fun j => modCost (A.getD i dPA) (C.getD j dPA)) =
      (∑ i ∈ (Finset.range a).erase i0,
        (m i).elim (indelCost (A.getD i dPA))
          (fun j => modCost (A.getD i dPA) (C.getD j dPA))) +
      modCost (A.getD i0 dPA) (C.getD j0 dPA) := by
    rw [← Finset.sum_erase_add _ _ hi0mem, hm'_i0, Option.elim_some]
    refine congrArg (· + _) (Finset.sum_congr rfl fun i hi => ?_)
    rw [hm'_at i (Finset.ne_of_mem_erase hi)]
  have hleft' : ∑ i ∈ Finset.range a,
      (m i).elim (indelCost (A.getD i dPA))
        (fun j => modCost (A.getD i dPA) (C.getD j dPA)) =
      (∑ i ∈ (Finset.range a).erase i0,
        (m i).elim (indelCost (A.getD i dPA))
          (fun j => modCost (A.getD i dPA) (C.getD j dPA))) +
      indelCost (A.getD i0 dPA) := by
    rw [← Finset.sum_erase_add _ _ hi0mem, hmi0, Option.elim_none]
  -- right sums
  have hright : ∑ j ∈ Finset.range c,
      (if ((Finset.range a).filter (fun i => m' i = some j)).Nonempty then 0
        else indelCost (C.getD j dPA)) =
      ∑ j ∈ (Finset.range c).erase j0,
        (if ((Finset.range a).filter (fun i => m i = some j)).Nonempty then 0
          else indelCost (C.getD j dPA)) := by
    rw [← Finset.sum_erase_add _ _ hj0mem]
    have hz : (if ((Finset.range a).filter (fun i => m' i = some j0)).Nonempty
        then 0 else indelCost (C.getD j0 dPA)) = 0 := by
      rw [if_pos ⟨i0, Finset.mem_filter.mpr ⟨hi0mem, hm'_i0⟩⟩]
    rw [hz, Nat.add_zero]
    refine Finset.sum_congr rfl fun j hj => ?_
    have hjne : j ≠ j0 := Finset.ne_of_mem_erase hj
    refine if_congr ⟨?_, ?_⟩ rfl rfl
    · rintro ⟨i, hi⟩
      obtain ⟨hia, hmi⟩ := Finset.mem_filter.mp hi
      have hii0 : i ≠ i0 := by
        rintro rfl
        rw [hm'_i0] at hmi
        exact hjne (Option.some.inj hmi).symm
      rw [hm'_at i hii0] at hmi
      exact ⟨i, Finset.mem_filter.mpr ⟨hia, hmi⟩⟩
    · rintro ⟨i, hi⟩
      obtain ⟨hia, hmi⟩ := Finset.mem_filter.mp hi
      have hii0 : i ≠ i0 := by
        rintro rfl
        rw [hmi0] at hmi
        exact absurd hmi (by simp)
      exact ⟨i, Finset.mem_filter.mpr ⟨hia, (hm'_at i hii0).symm ▸ hmi⟩⟩
  have hright' : ∑ j ∈ Finset.range c,
      (if ((Finset.range a).filter (fun i => m i = some j)).Nonempty then 0
        else indelCost (C.getD j dPA)) =
      (∑ j ∈ (Finset.range c).erase j0,
        (if ((Finset.range a).filter (fun i => m i = some j)).Nonempty then 0
          else indelCost (C.getD j dPA))) + indelCost (C.getD j0 dPA) := by
    rw [← Finset.sum_erase_add _ _ hj0mem, if_neg hum]
  have hmod := modCost_le_indelCosts (A.getD i0 dPA) (C.getD j0 dPA)
    (Hb i0 hi0 j0 hj0)
  have eM' : pmCost A C m' = (∑ i ∈ Finset.range a,
      (m' i).elim (indelCost (A.getD i dPA))
        (fun j => modCost (A.getD i dPA) (C.getD j dPA))) +
      (∑ j ∈ Finset.range c,
        (if ((Finset.range a).filter (fun i => m' i = some j)).Nonempty then 0
          else indelCost (C.getD j dPA))) := rfl
  have eM : pmCost A C m = (∑ i ∈ Finset.range a,
      (m i).elim (indelCost (A.getD i dPA))
        (fun j => modCost (A.getD i dPA) (C.getD j dPA))) +
      (∑ j ∈ Finset.range c,
        (if ((Finset.range a).filter (fun i => m i = some j)).Nonempty then 0
          else indelCost (C.getD j dPA))) := rfl
  rw [eM', eM, hleft, hleft', hright, hright']
  omega

/-- Every matching can be completed, at no extra cost, to one that is total on
the left positions or onto the right positions (position displacements bounded
by `2 * INDEL_COST`). -/
theorem exists_full_matching (A C : List (Nat × Attestation))
    (Hb : ∀ i < A.length, ∀ j < C.length,
      Nat.dist (A.getD i dPA).1 (C.getD j dPA).1 ≤ 2 * INDEL_COST) :
    ∀ (fuel : Nat) (m : Nat → Option Nat), IsMatching A.length C.length m →
    ((Finset.range A.length).filter (fun i => m i = none)).card ≤ fuel →
    ∃ m', IsMatching A.length C.length m' ∧ pmCost A C m' ≤ pmCost A C m ∧
      ((∀ i < A.length, m' i ≠ none) ∨
       (∀ j < C.length,
         ((Finset.range A.length).filter (fun i => m' i = some j)).Nonempty)) := by
  intro fuel
  induction fuel with
  | zero =>
    intro m hm hcard
    refine ⟨m, hm, le_rfl, Or.inl fun i hi hnone => ?_⟩
    have : i ∈ (Finset.range A.length).filter (fun i => m i = none) :=
      Finset.mem_filter.mpr ⟨Finset.mem_range.mpr hi, hnone⟩
    rw [Finset.card_eq_zero.mp (Nat.le_zero.mp hcard)] at this
    exact absurd this (Finset.not_mem_empty i)
  | succ fuel ih =>
    intro m hm hcard
    by_cases hL : ∃ i ∈ Finset.range A.length, m i = none
    · by_cases hR : ∃ j ∈ Finset.range C.length,
        ¬ ((Finset.range A.length).filter (fun i => m i = some j)).Nonempty
      · obtain ⟨i0, hi0mem, hmi0⟩ := hL
        obtain ⟨j0, hj0mem, hum⟩ := hR
        have hi0 : i0 < A.length := Finset.mem_range.mp hi0mem
        have hj0 : j0 < C.length := Finset.mem_range.mp hj0mem
        obtain ⟨hmatch', hle'⟩ := pmCost_pair_step A C m hm Hb hi0 hj0 hmi0 hum
        have hsub : (Finset.range A.length).filter
            (fun i => (if i = i0 then some j0 else m i) = none) ⊆
            ((Finset.range A.length).filter (fun i => m i = none)).erase i0 := by
          intro i hi
          obtain ⟨hia, hmi⟩ := Finset.mem_filter.mp hi
          by_cases hii : i = i0
          · subst hii
            rw [if_pos rfl] at hmi
            exact absurd hmi (by simp)
          · rw [if_neg hii] at hmi
            exact Finset.mem_erase.mpr ⟨hii, Finset.mem_filter.mpr ⟨hia, hmi⟩⟩
        have hcard' : ((Finset.range A.length).filter
            (fun i => (if i = i0 then some j0 else m i) = none)).card ≤ fuel := by
          have h1 := Finset.card_le_card hsub
          have h2 : (((Finset.range A.length).filter
              (fun i => m i = none)).erase i0).card =
              ((Finset.range A.length).filter (fun i => m i = none)).card - 1 :=
            Finset.card_erase_of_mem
              (Finset.mem_filter.mpr ⟨hi0mem, hmi0⟩)
          have h3 : 0 < ((Finset.range A.length).filter
              (fun i => m i = none)).card :=
            Finset.card_pos.mpr ⟨i0, Finset.mem_filter.mpr ⟨hi0mem, hmi0⟩⟩
          omega
        obtain ⟨m'', hm'', hle'', hfull''⟩ := ih _ hmatch' hcard'
        exact ⟨m'', hm'', le_trans hle'' hle', hfull''⟩
      · push_neg at hR
        refine ⟨m, hm, le_rfl, Or.inr fun j hj => ?_⟩
        exact hR j (Finset.mem_range.mpr hj)
    · push_neg at hL
      refine ⟨m, hm, le_rfl, Or.inl fun i hi => ?_⟩
      exact hL i (Finset.mem_range.mpr hi)

theorem map_range_getD {g : Nat → Nat} {n k : Nat} (hk : k < n) :
    ((List.range n).map g).getD k 0 = g k := by
  rw [List.getD_eq_getElem?_getD,
    List.getElem?_eq_getElem (by rw [List.length_map, List.length_range]; exact hk),
    Option.getD_some, List.getElem_map, List.getElem_range]

theorem map_range_perm {g : Nat → Nat} {n : Nat}
    (hinto : ∀ k < n, g k < n)
    (hinj : ∀ k1 < n, ∀ k2 < n, g k1 = g k2 → k1 = k2) :
    ((List.range n).map g).Perm (List.range n) := by
  rw [List.perm_ext_iff_of_nodup ?nd (List.nodup_range n)]
  case nd =>
    exact List.Nodup.map_on
      (fun x hx y hy hxy =>
        hinj x (List.mem_range.mp hx) y (List.mem_range.mp hy) hxy)
      (List.nodup_range n)
  intro x
  constructor
  · intro hx
    obtain ⟨k, hk, rfl⟩ := List.mem_map.mp hx
    exact List.mem_range.mpr (hinto k (List.mem_range.mp hk))
  · intro hx
    have himg : (Finset.range n).image g = Finset.range n := by
      refine Finset.eq_of_subset_of_card_le ?_ ?_
      · intro y hy
        obtain ⟨k, hk, rfl⟩ := Finset.mem_image.mp hy
        exact Finset.mem_range.mpr (hinto k (Finset.mem_range.mp hk))
      · rw [Finset.card_image_of_injOn ?_, Finset.card_range]
        intro k1 h1 k2 h2
        exact hinj k1 (Finset.mem_range.mp (Finset.mem_coe.mp h1)) k2
          (Finset.mem_range.mp (Finset.mem_coe.mp h2))
    have : x ∈ (Finset.range n).image g := by
      rw [himg]
      exact Finset.mem_range.mpr (List.mem_range.mp hx)
    obtain ⟨k, hk, rfl⟩ := Finset.mem_image.mp this
    exact List.mem_map.mpr ⟨k, List.mem_range.mpr (Finset.mem_range.mp hk), rfl⟩

/-- A matching total on the left positions is realized by an assignment of the
padded square matrix with the same cost. -/
theorem exists_perm_of_left_full (A C : List (Nat × Attestation))
    (hd : ∀ p ∈ A, ∀ q ∈ C, p.2.data = q.2.data) (m : Nat → Option Nat)
    (hm : IsMatching A.length C.length m)
    (hfull : ∀ i < A.length, m i ≠ none) :
    ∃ σ, σ.Perm (List.range (max A.length C.length)) ∧
      assignCost A C σ = pmCost A C m := by
  set a := A.length with ha_def
  set c := C.length with hc_def
  have hsome : ∀ i < a, ∃ j, m i = some j ∧ j < c := by
    intro i hi
    obtain ⟨j, hj⟩ := Option.ne_none_iff_exists'.mp (hfull i hi)
    exact ⟨j, hj, hm.1 i j hi hj⟩
  set M : Finset Nat := (Finset.range a).image (fun i => (m i).getD 0) with hM
  have hmem_M : ∀ {j}, j ∈ M ↔ ∃ i < a, m i = some j := by
    intro j
    rw [hM, Finset.mem_image]
    constructor
    · rintro ⟨i, hi, rfl⟩
      obtain ⟨j', hj', _⟩ := hsome i (Finset.mem_range.mp hi)
      refine ⟨i, Finset.mem_range.mp hi, ?_⟩
      rw [hj', Option.getD_some]
    · rintro ⟨i, hi, hij⟩
      exact ⟨i, Finset.mem_range.mpr hi, by simp [hij]⟩
  have hMsub : M ⊆ Finset.range c := by
    intro j hj
    obtain ⟨i, hi, hij⟩ := hmem_M.mp hj
    exact Finset.mem_range.mpr (hm.1 i j hi hij)
  have hMcard : M.card = a := by
    rw [hM, Finset.card_image_of_injOn, Finset.card_range]
    intro i1 h1 i2 h2 he
    obtain ⟨j1, hj1, _⟩ := hsome i1 (Finset.mem_range.mp (Finset.mem_coe.mp h1))
    obtain ⟨j2, hj2, _⟩ := hsome i2 (Finset.mem_range.mp (Finset.mem_coe.mp h2))
    simp only [hj1, hj2, Option.getD_some] at he
    obtain rfl : j1 = j2 := he
    exact hm.2 i1 i2 j1 (Finset.mem_range.mp (Finset.mem_coe.mp h1))
      (Finset.mem_range.mp (Finset.mem_coe.mp h2)) hj1 hj2
  have hac : a ≤ c := by
    have := Finset.card_le_card hMsub
    rw [hMcard, Finset.card_range] at this
    exact this
  have hn : max a c = c := Nat.max_eq_right hac
  set U : Finset Nat := Finset.range c \ M with hU
  have hUcard : U.card = c - a := by
    rw [hU, Finset.card_sdiff hMsub, Finset.card_range, hMcard]
  set e := U.equivFin with he
  -- the assignment: real rows to their match, virtual rows to unmatched columns
  set g : Nat → Nat := fun k =>
    if h : a ≤ k ∧ k < c then
      (e.symm ⟨k - a, by rw [hUcard]; omega⟩ : { x // x ∈ U }).val
    else (m k).getD 0 with hg
  have hg_real : ∀ k < a, g k = (m k).getD 0 := by
    intro k hk
    simp only [hg]
    rw [dif_neg (by omega)]
  have hg_virt : ∀ (k : Nat) (hak : a ≤ k) (hkc : k < c),
      g k = (e.symm ⟨k - a, by rw [hUcard]; omega⟩ : { x // x ∈ U }).val := by
    intro k hk hkc
    simp only [hg]
    rw [dif_pos ⟨hk, hkc⟩]
  have hg_virt_mem : ∀ k, a ≤ k → (hkc : k < c) → g k ∈ U := by
    intro k hk hkc
    rw [hg_virt k hk hkc]
    exact (e.symm _).2
  have hinto : ∀ k < c, g k < c := by
    intro k hk
    by_cases hka : k < a
    · obtain ⟨j, hj, hjc⟩ := hsome k hka
      rw [hg_real k hka, hj]
      exact hjc
    · have := hg_virt_mem k (Nat.le_of_not_lt hka) hk
      rw [hU] at this
      exact Finset.mem_range.mp (Finset.mem_sdiff.mp this).1
  have hinj : ∀ k1 < c, ∀ k2 < c, g k1 = g k2 → k1 = k2 := by
    intro k1 h1 k2 h2 he12
    by_cases ha1 : k1 < a <;> by_cases ha2 : k2 < a
    · obtain ⟨j1, hj1, _⟩ := hsome k1 ha1
      obtain ⟨j2, hj2, _⟩ := hsome k2 ha2
      rw [hg_real k1 ha1, hg_real k2 ha2, hj1, hj2] at he12
      obtain rfl : j1 = j2 := he12
      exact hm.2 k1 k2 j1 ha1 ha2 hj1 hj2
    · -- g k1 ∈ M, g k2 ∈ U : impossible
      exfalso
      obtain ⟨j1, hj1, _⟩ := hsome k1 ha1
      have hM1 : g k1 ∈ M := by
        rw [hg_real k1 ha1]
        exact hmem_M.mpr ⟨k1, ha1, by rw [hj1, Option.getD_some]⟩
      have hU2 : g k2 ∈ U := hg_virt_mem k2 (Nat.le_of_not_lt ha2) h2
      rw [he12] at hM1
      rw [hU] at hU2
      exact (Finset.mem_sdiff.mp hU2).2 hM1
    · exfalso
      obtain ⟨j2, hj2, _⟩ := hsome k2 ha2
      have hM2 : g k2 ∈ M := by
        rw [hg_real k2 ha2]
        exact hmem_M.mpr ⟨k2, ha2, by rw [hj2, Option.getD_some]⟩
      have hU1 : g k1 ∈ U := hg_virt_mem k1 (Nat.le_of_not_lt ha1) h1
      rw [← he12] at hM2
      rw [hU] at hU1
      exact (Finset.mem_sdiff.mp hU1).2 hM2
    · have e1 := hg_virt k1 (Nat.le_of_not_lt ha1) h1
      have e2 := hg_virt k2 (Nat.le_of_not_lt ha2) h2
      rw [e1, e2] at he12
      have heq := e.symm.injective (Subtype.ext he12)
      rw [Fin.mk.injEq] at heq
      omega
  refine ⟨(List.range c).map g, by rw [hn]; exact map_range_perm hinto hinj, ?_⟩
  rw [assignCost, List.length_map, List.length_range]
  have hterm : ∀ k ∈ Finset.range c,
      matrixEntry A C k (((List.range c).map g).getD k 0) =
        matrixEntry A C k (g k) := by
    intro k hk
    rw [map_range_getD (Finset.mem_range.mp hk)]
  rw [Finset.sum_congr rfl hterm]
  have hsplit : ∑ k ∈ Finset.range c, matrixEntry A C k (g k) =
      (∑ k ∈ Finset.range a, matrixEntry A C k (g k)) +
      (∑ k ∈ Finset.Ico a c, matrixEntry A C k (g k)) := by
    rw [Finset.range_eq_Ico]
    exact (Finset.sum_Ico_consecutive _ (Nat.zero_le a) hac).symm
  rw [hsplit, pmCost]
  have hleft : ∑ k ∈ Finset.range a, matrixEntry A C k (g k) =
      ∑ i ∈ Finset.range a,
        (m i).elim (indelCost (A.getD i dPA))
          (fun j => modCost (A.getD i dPA) (C.getD j dPA)) := by
    refine Finset.sum_congr rfl fun k hk => ?_
    have hka : k < a := Finset.mem_range.mp hk
    obtain ⟨j, hj, hjc⟩ := hsome k hka
    rw [hg_real k hka, hj, Option.getD_some, Option.elim_some,
      matrixEntry_eq_modCost A C hd hka hjc]
  have hright : ∑ k ∈ Finset.Ico a c, matrixEntry A C k (g k) =
      ∑ j ∈ Finset.range c,
        (if ((Finset.range a).filter (fun i => m i = some j)).Nonempty then 0
          else indelCost (C.getD j dPA)) := by
    rw [sum_ite_not_eq_filter]
    have hfilter_eq : (Finset.range c).filter
        (fun j => ¬ ((Finset.range a).filter (fun i => m i = some j)).Nonempty) =
        U := by
      ext j
      rw [Finset.mem_filter, hU, Finset.mem_sdiff]
      constructor
      · rintro ⟨hjc, hnm⟩
        refine ⟨hjc, fun hjM => hnm ?_⟩
        obtain ⟨i, hi, hij⟩ := hmem_M.mp hjM
        exact ⟨i, Finset.mem_filter.mpr ⟨Finset.mem_range.mpr hi, hij⟩⟩
      · rintro ⟨hjc, hnM⟩
        refine ⟨hjc, fun hne => hnM (hmem_M.mpr ?_)⟩
        obtain ⟨i, hi⟩ := hne
        obtain ⟨hia, hij⟩ := Finset.mem_filter.mp hi
        exact ⟨i, Finset.mem_range.mp hia, hij⟩
    rw [hfilter_eq]
    refine Finset.sum_nbij' (fun k => g k)
      (fun u => if h : u ∈ U then a + ((e ⟨u, h⟩ : Fin U.card) : Nat) else 0)
      ?_ ?_ ?_ ?_ ?_
    · intro k hk
      obtain ⟨hak, hkc⟩ := Finset.mem_Ico.mp hk
      exact hg_virt_mem k hak hkc
    · intro u hu
      show (if h : u ∈ U then a + ((e ⟨u, h⟩ : Fin U.card) : Nat) else 0) ∈
        Finset.Ico a c
      rw [dif_pos hu]
      have hvlt : ((e ⟨u, hu⟩ : Fin U.card) : Nat) < c - a := by
        rw [← hUcard]
        exact (e ⟨u, hu⟩).isLt
      refine Finset.mem_Ico.mpr ⟨Nat.le_add_right _ _, ?_⟩
      omega
    · intro k hk
      obtain ⟨hak, hkc⟩ := Finset.mem_Ico.mp hk
      have hmem := hg_virt_mem k hak hkc
      show (if h : g k ∈ U then a + ((e ⟨g k, h⟩ : Fin U.card) : Nat) else 0) = k
      rw [dif_pos hmem]
      have hsub : (⟨g k, hmem⟩ : { x // x ∈ U }) =
          e.symm ⟨k - a, by rw [hUcard]; omega⟩ :=
        Subtype.ext (hg_virt k hak hkc)
      rw [hsub, Equiv.apply_symm_apply]
      show a + (k - a) = k
      omega
    · intro u hu
      show g (if h : u ∈ U then a + ((e ⟨u, h⟩ : Fin U.card) : Nat) else 0) = u
      rw [dif_pos hu]
      have hvlt : ((e ⟨u, hu⟩ : Fin U.card) : Nat) < c - a := by
        rw [← hUcard]
        exact (e ⟨u, hu⟩).isLt
      have hfin : ∀ pf : a + ((e ⟨u, hu⟩ : Fin U.card) : Nat) - a < U.card,
          (⟨a + ((e ⟨u, hu⟩ : Fin U.card) : Nat) - a, pf⟩ : Fin U.card) =
            e ⟨u, hu⟩ := by
        intro pf
        refine Fin.ext ?_
        show a + ((e ⟨u, hu⟩ : Fin U.card) : Nat) - a = _
        omega
      refine (hg_virt (a + ((e ⟨u, hu⟩ : Fin U.card) : Nat))
        (Nat.le_add_right _ _) (by omega)).trans ?_
      rw [hfin, Equiv.symm_apply_apply]
    · intro k hk
      obtain ⟨hak, hkc⟩ := Finset.mem_Ico.mp hk
      exact matrixEntry_left_out A C hak (hinto k hkc)
  rw [hleft, hright]

/-- A matching covering all right positions is realized by an assignment of the
padded square matrix with the same cost. -/
theorem exists_perm_of_right_full (A C : List (Nat × Attestation))
    (hd : ∀ p ∈ A, ∀ q ∈ C, p.2.data = q.2.data) (m : Nat → Option Nat)
    (hm : IsMatching A.length C.length m)
    (hfull : ∀ j < C.length,
      ((Finset.range A.length).filter (fun i => m i = some j)).Nonempty) :
    ∃ σ, σ.Perm (List.range (max A.length C.length)) ∧
      assignCost A C σ = pmCost A C m := by
  set a := A.length with ha_def
  set c := C.length with hc_def
  set ML : Finset Nat := (Finset.range a).filter (fun i => ¬ m i = none) with hML
  set UL : Finset Nat := (Finset.range a).filter (fun i => m i = none) with hUL
  have hML_some : ∀ {i}, i ∈ ML → ∃ j, m i = some j ∧ j < c := by
    intro i hi
    obtain ⟨hia, hnone⟩ := Finset.mem_filter.mp hi
    obtain ⟨j, hj⟩ := Option.ne_none_iff_exists'.mp hnone
    exact ⟨j, hj, hm.1 i j (Finset.mem_range.mp hia) hj⟩
  have himg : ML.image (fun i => (m i).getD 0) = Finset.range c := by
    ext j
    constructor
    · intro hj
      obtain ⟨i, hi, rfl⟩ := Finset.mem_image.mp hj
      obtain ⟨j', hj', hj'c⟩ := hML_some hi
      rw [hj', Option.getD_some]
      exact Finset.mem_range.mpr hj'c
    · intro hj
      obtain ⟨i, hi⟩ := hfull j (Finset.mem_range.mp hj)
      obtain ⟨hia, hij⟩ := Finset.mem_filter.mp hi
      refine Finset.mem_image.mpr ⟨i, Finset.mem_filter.mpr ⟨hia, by simp [hij]⟩, ?_⟩
      rw [hij, Option.getD_some]
  have hMLcard : ML.card = c := by
    have hinjOn : Set.InjOn (fun i => (m i).getD 0) ↑ML := by
      intro i1 h1 i2 h2 he12
      obtain ⟨j1, hj1, _⟩ := hML_some (Finset.mem_coe.mp h1)
      obtain ⟨j2, hj2, _⟩ := hML_some (Finset.mem_coe.mp h2)
      simp only [hj1, hj2, Option.getD_some] at he12
      obtain rfl : j1 = j2 := he12
      exact hm.2 i1 i2 j1
        (Finset.mem_range.mp (Finset.mem_filter.mp (Finset.mem_coe.mp h1)).1)
        (Finset.mem_range.mp (Finset.mem_filter.mp (Finset.mem_coe.mp h2)).1)
        hj1 hj2
    have := Finset.card_image_of_injOn hinjOn
    rw [himg, Finset.card_range] at this
    exact this.symm
  have hpart : UL.card + ML.card = a := by
    have := Finset.filter_card_add_filter_neg_card_eq_card
      (s := Finset.range a) (p := fun i => m i = none)
    rw [Finset.card_range] at this
    exact this
  have hca : c ≤ a := by omega
  have hn : max a c = a := Nat.max_eq_left hca
  have hULcard : UL.card = a - c := by omega
  set eL := UL.equivFin with heL
  set g : Nat → Nat := fun k =>
    if h : k ∈ UL then c + ((eL ⟨k, h⟩ : Fin UL.card) : Nat)
    else (m k).getD 0 with hg
  have hg_matched : ∀ {k j}, k < a → m k = some j → g k = j := by
    intro k j hka hkj
    simp only [hg]
    rw [dif_neg (by
      intro hk
      obtain ⟨_, hnone⟩ := Finset.mem_filter.mp hk
      rw [hkj] at hnone
      exact absurd hnone (by simp)), hkj, Option.getD_some]
  have hg_none : ∀ {k}, (h : k ∈ UL) →
      g k = c + ((eL ⟨k, h⟩ : Fin UL.card) : Nat) := by
    intro k h
    simp only [hg]
    rw [dif_pos h]
  have hval_lt : ∀ {k} (h : k ∈ UL), ((eL ⟨k, h⟩ : Fin UL.card) : Nat) < a - c := by
    intro k h
    rw [← hULcard]
    exact (eL ⟨k, h⟩).isLt
  have hcase : ∀ k < a, (∃ j, m k = some j ∧ j < c) ∨ k ∈ UL := by
    intro k hka
    rcases hmk : m k with _ | j
    · exact Or.inr (Finset.mem_filter.mpr ⟨Finset.mem_range.mpr hka, hmk⟩)
    · exact Or.inl ⟨j, rfl, hm.1 k j hka hmk⟩
  have hinto : ∀ k < a, g k < a := by
    intro k hka
    rcases hcase k hka with ⟨j, hj, hjc⟩ | hk
    · rw [hg_matched hka hj]
      omega
    · rw [hg_none hk]
      have := hval_lt hk
      omega
  have hinj : ∀ k1 < a, ∀ k2 < a, g k1 = g k2 → k1 = k2 := by
    intro k1 h1 k2 h2 he12
    rcases hcase k1 h1 with ⟨j1, hj1, hj1c⟩ | hk1 <;>
      rcases hcase k2 h2 with ⟨j2, hj2, hj2c⟩ | hk2
    · rw [hg_matched h1 hj1, hg_matched h2 hj2] at he12
      obtain rfl : j1 = j2 := he12
      exact hm.2 k1 k2 j1 h1 h2 hj1 hj2
    · rw [hg_matched h1 hj1, hg_none hk2] at he12
      omega
    · rw [hg_none hk1, hg_matched h2 hj2] at he12
      omega
    · rw [hg_none hk1, hg_none hk2] at he12
      have hv := Nat.add_left_cancel he12
      have := eL.injective (Fin.ext hv)
      exact congrArg Subtype.val this
  refine ⟨(List.range a).map g, by rw [hn]; exact map_range_perm hinto hinj, ?_⟩
  rw [assignCost, List.length_map, List.length_range, pmCost]
  have hterm : ∀ k ∈ Finset.range a,
      matrixEntry A C k (((List.range a).map g).getD k 0) =
        (m k).elim (indelCost (A.getD k dPA))
          (fun j => modCost (A.getD k dPA) (C.getD j dPA)) := by
    intro k hk
    have hka : k < a := Finset.mem_range.mp hk
    rw [map_range_getD hka]
    rcases hcase k hka with ⟨j, hj, hjc⟩ | hkU
    · rw [hg_matched hka hj, hj, Option.elim_some,
        matrixEntry_eq_modCost A C hd hka hjc]
    · have hmk : m k = none := (Finset.mem_filter.mp hkU).2
      rw [hmk, Option.elim_none, matrixEntry_right_out A C hka ?_]
      rw [hg_none hkU]
      omega
  rw [Finset.sum_congr rfl hterm]
  have hzero : ∑ j ∈ Finset.range c,
      (if ((Finset.range a).filter (fun i => m i = some j)).Nonempty then 0
        else indelCost (C.getD j dPA)) = 0 := by
    refine Finset.sum_eq_zero fun j hj => ?_
    rw [if_pos (hfull j (Finset.mem_range.mp hj))]
  rw [hzero, Nat.add_zero]

/-- The bucket minimum is bounded by the cost of any matching, provided
position displacements are bounded by `2 * INDEL_COST`. -/
theorem bucketCost_le_pmCost (A C : List (Nat × Attestation))
    (hd : ∀ p ∈ A, ∀ q ∈ C, p.2.data = q.2.data)
    (Hb : ∀ i < A.length, ∀ j < C.length,
      Nat.dist (A.getD i dPA).1 (C.getD j dPA).1 ≤ 2 * INDEL_COST)
    (m : Nat → Option Nat) (hm : IsMatching A.length C.length m) :
    bucketCost A C ≤ pmCost A C m := by
  obtain ⟨m', hm', hle', hfull⟩ := exists_full_matching A C Hb
    (((Finset.range A.length).filter (fun i => m i = none)).card) m hm le_rfl
  rcases hfull with hL | hR
  · obtain ⟨σ, hσ, hcost⟩ := exists_perm_of_left_full A C hd m' hm' hL
    calc bucketCost A C ≤ assignCost A C σ := bucketCost_le A C hσ
      _ = pmCost A C m' := hcost
      _ ≤ pmCost A C m := hle'
  · obtain ⟨σ, hσ, hcost⟩ := exists_perm_of_right_full A C hd m' hm' hR
    calc bucketCost A C ≤ assignCost A C σ := bucketCost_le A C hσ
      _ = pmCost A C m' := hcost
      _ ≤ pmCost A C m := hle'

/-- Triangle inequality for one bucket. -/
theorem bucketCost_triangle (A B C : List (Nat × Attestation))
    (hdAB : ∀ p ∈ A, ∀ q ∈ B, p.2.data = q.2.data)
    (hdBC : ∀ p ∈ B, ∀ q ∈ C, p.2.data = q.2.data)
    (hdAC : ∀ p ∈ A, ∀ q ∈ C, p.2.data = q.2.data)
    (Hb : ∀ i < A.length, ∀ j < C.length,
      Nat.dist (A.getD i dPA).1 (C.getD j dPA).1 ≤ 2 * INDEL_COST) :
    bucketCost A C ≤ bucketCost A B + bucketCost B C := by
  obtain ⟨f, hf, hfc⟩ := exists_matching_of_perm A B hdAB (bucketAssign_perm A B)
  obtain ⟨g, hg, hgc⟩ := exists_matching_of_perm B C hdBC (bucketAssign_perm B C)
  obtain ⟨hcomp, hle⟩ := pmCost_comp A B C f g hf hg
  have hAB : pmCost A B f = bucketCost A B := hfc
  have hBC : pmCost B C g = bucketCost B C := hgc
  calc bucketCost A C ≤ pmCost A C (fun i => (f i).bind g) :=
        bucketCost_le_pmCost A C hdAC Hb _ hcomp
    _ ≤ pmCost A B f + pmCost B C g := hle
    _ = bucketCost A B + bucketCost B C := by rw [hAB, hBC]

/-! ## Bucket facts for the list-level statements -/

theorem mem_bucket_data {xs : List Attestation} {d : AttestationData}
    {p : Nat × Attestation} (hp : p ∈ index_by_attestation_data xs d) :
    p.2.data = d := by
  rw [index_by_attestation_data] at hp
  have := (List.mem_filter.mp hp).2
  exact of_decide_eq_true this

theorem mem_bucket_pos {xs : List Attestation} {d : AttestationData}
    {p : Nat × Attestation} (hp : p ∈ index_by_attestation_data xs d) :
    p.1 < xs.length ∧ xs.get? p.1 = some p.2 := by
  rw [index_by_attestation_data] at hp
  have hmem := (List.mem_filter.mp hp).1
  have hget := List.mem_enum_iff_get?.mp hmem
  refine ⟨?_, hget⟩
  obtain ⟨h, _⟩ := List.get?_eq_some.mp hget
  exact h

theorem bucket_getD_mem {A : List (Nat × Attestation)} {i : Nat}
    (hi : i < A.length) : A.getD i dPA ∈ A := by
  rw [List.getD_eq_getElem?_getD, List.getElem?_eq_getElem hi, Option.getD_some]
  exact List.getElem_mem _

theorem bucket_nil_of_not_mem {xs : List Attestation} {d : AttestationData}
    (h : ∀ a ∈ xs, a.data ≠ d) : index_by_attestation_data xs d = [] := by
  rw [index_by_attestation_data, List.filter_eq_nil_iff]
  intro p hp
  have hget := List.mem_enum_iff_get?.mp hp
  have hmem : p.2 ∈ xs := List.get?_mem hget
  simp [h p.2 hmem]

theorem bucketCost_nil_nil : bucketCost ([] : List (Nat × Attestation)) [] = 0 := by
  rw [bucketCost_right_nil]
  rfl

theorem attDatas_toFinset (xs ys : List Attestation) :
    (attDatas xs ys).toFinset =
      (xs.map (·.data)).toFinset ∪ (ys.map (·.data)).toFinset := by
  have hdedup : ∀ l : List AttestationData, l.dedup.toFinset = l.toFinset := by
    intro l
    ext x
    simp [List.mem_toFinset, List.mem_dedup]
  rw [attDatas, hdedup, List.toFinset_append]

/-- Extension of the bucket sum to any larger key set. -/
theorem bucketSum_extend (xs ys : List Attestation) (K : Finset AttestationData)
    (hK : (attDatas xs ys).toFinset ⊆ K) :
    ∑ d ∈ (attDatas xs ys).toFinset,
      bucketCost (index_by_attestation_data xs d) (index_by_attestation_data ys d) =
    ∑ d ∈ K,
      bucketCost (index_by_attestation_data xs d) (index_by_attestation_data ys d) := by
  refine Finset.sum_subset hK fun d _ hd => ?_
  have hdn : d ∉ attDatas xs ys := fun hmem => hd (List.mem_toFinset.mpr hmem)
  have hnx : ∀ a ∈ xs, a.data ≠ d := by
    intro a ha had
    refine hdn ?_
    rw [attDatas, List.mem_dedup, List.mem_append]
    exact Or.inl (List.mem_map.mpr ⟨a, ha, had⟩)
  have hny : ∀ a ∈ ys, a.data ≠ d := by
    intro a ha had
    refine hdn ?_
    rw [attDatas, List.mem_dedup, List.mem_append]
    exact Or.inr (List.mem_map.mpr ⟨a, ha, had⟩)
  rw [bucket_nil_of_not_mem hnx, bucket_nil_of_not_mem hny, bucketCost_nil_nil]

/-! ## List-level metric laws -/

theorem bucketCost_self (A : List (Nat × Attestation))
    (hd : ∀ p ∈ A, ∀ q ∈ A, p.2.data = q.2.data) :
    bucketCost A A = 0 := by
  have hid : (List.range A.length).Perm
      (List.range (max A.length A.length)) := by
    rw [Nat.max_self]
  refine Nat.le_zero.mp (le_trans (bucketCost_le A A hid) (le_of_eq ?_))
  rw [assignCost, List.length_range]
  refine Finset.sum_eq_zero fun k hk => ?_
  have hk' : k < A.length := Finset.mem_range.mp hk
  have hget : (List.range A.length).getD k 0 = k := by
    rw [List.getD_eq_getElem?_getD, List.getElem?_range hk']
    rfl
  rw [hget, matrixEntry_eq_modCost A A hd hk' hk', modCost, Nat.dist_self,
    bitDist_self]
  rfl

/-- `d(x,x) = 0` at list type. -/
theorem AttList.distance_self (xs : List Attestation) :
    AttList.distance xs xs = some 0 := by
  rw [AttList.distance_eq_finsetSum]
  refine congrArg some (Finset.sum_eq_zero fun d _ => ?_)
  refine bucketCost_self _ fun p hp q hq => ?_
  rw [mem_bucket_data hp, mem_bucket_data hq]

/-- `d(x,y) = d(y,x)` at list type (for the scalar distance). -/
theorem AttList.distance_symm (xs ys : List Attestation) :
    AttList.distance xs ys = AttList.distance ys xs := by
  rw [AttList.distance_eq_finsetSum, AttList.distance_eq_finsetSum]
  refine congrArg some ?_
  have hset : (attDatas xs ys).toFinset = (attDatas ys xs).toFinset := by
    rw [attDatas_toFinset, attDatas_toFinset, Finset.union_comm]
  rw [hset]
  exact Finset.sum_congr rfl fun d _ => (bucketCost_symm _ _).symm

/-- Triangle inequality at list type, for outer lists of length at most 128:
then all stored indices are below `INDEL_COST = 128`, so every position
displacement is at most `2 * INDEL_COST` and indel/modify exchanges stay
cost-decreasing. -/
theorem AttList.distance_triangle (xs ys zs : List Attestation)
    (hx : xs.length ≤ 128) (hz : zs.length ≤ 128) :
    (AttList.distance xs zs).getD 0 ≤
      (AttList.distance xs ys).getD 0 + (AttList.distance ys zs).getD 0 := by
  rw [AttList.distance_eq_finsetSum, AttList.distance_eq_finsetSum,
    AttList.distance_eq_finsetSum, Option.getD_some, Option.getD_some,
    Option.getD_some]
  set K : Finset AttestationData := (xs.map (·.data)).toFinset ∪
    (ys.map (·.data)).toFinset ∪ (zs.map (·.data)).toFinset with hK
  have hxK : (xs.map (·.data)).toFinset ⊆ K := fun d hd => by
    rw [hK]
    simp only [Finset.mem_union]
    exact Or.inl (Or.inl hd)
  have hyK : (ys.map (·.data)).toFinset ⊆ K := fun d hd => by
    rw [hK]
    simp only [Finset.mem_union]
    exact Or.inl (Or.inr hd)
  have hzK : (zs.map (·.data)).toFinset ⊆ K := fun d hd => by
    rw [hK]
    simp only [Finset.mem_union]
    exact Or.inr hd
  rw [bucketSum_extend xs zs K
      (by rw [attDatas_toFinset]; exact Finset.union_subset hxK hzK),
    bucketSum_extend xs ys K
      (by rw [attDatas_toFinset]; exact Finset.union_subset hxK hyK),
    bucketSum_extend ys zs K
      (by rw [attDatas_toFinset]; exact Finset.union_subset hyK hzK)]
  rw [← Finset.sum_add_distrib]
  refine Finset.sum_le_sum fun d _ => ?_
  refine bucketCost_triangle _ _ _ ?_ ?_ ?_ ?_
  · intro p hp q hq
    rw [mem_bucket_data hp, mem_bucket_data hq]
  · intro p hp q hq
    rw [mem_bucket_data hp, mem_bucket_data hq]
  · intro p hp q hq
    rw [mem_bucket_data hp, mem_bucket_data hq]
  · intro i hi j hj
    have hpi := bucket_getD_mem hi
    have hqj := bucket_getD_mem hj
    have h1 := (mem_bucket_pos hpi).1
    have h2 := (mem_bucket_pos hqj).1
    rw [INDEL_COST]
    simp only [Nat.dist]
    omega

/-! ## Characterization of zero distance -/

theorem bucketCost_zero_lengths {A C : List (Nat × Attestation)}
    (h : bucketCost A C = 0) : A.length = C.length := by
  have hperm := bucketAssign_perm A C
  rw [bucketCost, assignCost, perm_range_length hperm] at h
  have hentry := (Finset.sum_eq_zero_iff).mp h
  by_contra hne
  rcases Nat.lt_or_ge A.length C.length with hlt | hge
  · have hk : A.length < max A.length C.length :=
      lt_of_lt_of_le hlt (le_max_right _ _)
    have hσk : (bucketAssign A C).getD A.length 0 < C.length := by
      have := perm_range_getD_lt hperm hk
      omega
    have h0 := hentry A.length (Finset.mem_range.mpr hk)
    rw [matrixEntry_left_out A C le_rfl hσk, indelCost, INDEL_COST] at h0
    omega
  · have hlt : C.length < A.length := lt_of_le_of_ne hge (fun he => hne he.symm)
    have hjlt : C.length < max A.length C.length :=
      lt_of_lt_of_le hlt (le_max_left _ _)
    have hklt := perm_range_indexOf_lt hperm hjlt
    have hval := perm_range_getD_indexOf hperm hjlt
    have h0 := hentry _ (Finset.mem_range.mpr hklt)
    rw [hval] at h0
    have hkA : List.indexOf C.length (bucketAssign A C) < A.length := by omega
    rw [matrixEntry_right_out A C hkA le_rfl, indelCost, INDEL_COST] at h0
    omega

/-- In a zero-cost bucket, every left element is matched to a right element at
the same original position with identical (padded) bits. -/
theorem bucketCost_zero_matched {A C : List (Nat × Attestation)}
    (hd : ∀ p ∈ A, ∀ q ∈ C, p.2.data = q.2.data)
    (h : bucketCost A C = 0) :
    ∀ r < A.length, ∃ s < C.length,
      (A.getD r dPA).1 = (C.getD s dPA).1 ∧
      bitDist (A.getD r dPA).2.aggregation_bits
        (C.getD s dPA).2.aggregation_bits = 0 := by
  intro r hr
  have hlen := bucketCost_zero_lengths h
  have hperm := bucketAssign_perm A C
  rw [bucketCost, assignCost, perm_range_length hperm] at h
  have hentry := (Finset.sum_eq_zero_iff).mp h
  have hrn : r < max A.length C.length := lt_of_lt_of_le hr (le_max_left _ _)
  have hσr : (bucketAssign A C).getD r 0 < C.length := by
    have := perm_range_getD_lt hperm hrn
    omega
  refine ⟨(bucketAssign A C).getD r 0, hσr, ?_⟩
  have h0 := hentry r (Finset.mem_range.mpr hrn)
  rw [matrixEntry_eq_modCost A C hd hr hσr, modCost] at h0
  exact ⟨Nat.eq_of_dist_eq_zero (by omega), by omega⟩

/-- Default attestation for `List.getD` on attestation lists. -/
def dA : Attestation := ⟨⟨0, 0, 0, ⟨0, 0⟩, ⟨0, 0⟩⟩, []⟩

theorem Attestation.ext_of {a b : Attestation} (h1 : a.data = b.data)
    (h2 : a.aggregation_bits = b.aggregation_bits) : a = b := by
  cases a
  cases b
  cases h1
  cases h2
  rfl

/-- Zero list distance forces a position-preserving pairing: each `xs[i]` has a
partner `ys[i]` with the same vote data and the same padded bitfield. -/
theorem AttList.distance_zero_pointwise {xs ys : List Attestation}
    (h : AttList.distance xs ys = some 0) :
    ∀ i < xs.length, ∃ b, ys.get? i = some b ∧
      (xs.getD i dA).data = b.data ∧
      bitDist (xs.getD i dA).aggregation_bits b.aggregation_bits = 0 := by
  intro i hi
  have hxi : xs.get? i = some (xs.getD i dA) := get?_eq_some_getD xs dA hi
  have hxmem : xs.getD i dA ∈ xs := List.get?_mem hxi
  have hmem : (i, xs.getD i dA) ∈
      index_by_attestation_data xs (xs.getD i dA).data := by
    rw [index_by_attestation_data, List.mem_filter]
    exact ⟨List.mem_enum_iff_get?.mpr hxi, by simp⟩
  have hdK : (xs.getD i dA).data ∈ (attDatas xs ys).toFinset := by
    rw [attDatas_toFinset, Finset.mem_union]
    exact Or.inl (List.mem_toFinset.mpr (List.mem_map.mpr ⟨_, hxmem, rfl⟩))
  have hsum := AttList.distance_eq_finsetSum xs ys
  rw [h] at hsum
  have hzero := (Option.some.inj hsum).symm
  have hbz := (Finset.sum_eq_zero_iff).mp hzero _ hdK
  obtain ⟨r, hrlen, hrval⟩ := List.getElem_of_mem hmem
  have hrD : (index_by_attestation_data xs (xs.getD i dA).data).getD r dPA =
      (i, xs.getD i dA) := by
    rw [List.getD_eq_getElem?_getD, List.getElem?_eq_getElem hrlen,
      Option.getD_some, hrval]
  have hdata : ∀ p ∈ index_by_attestation_data xs (xs.getD i dA).data,
      ∀ q ∈ index_by_attestation_data ys (xs.getD i dA).data,
      p.2.data = q.2.data := fun p hp q hq => by
    rw [mem_bucket_data hp, mem_bucket_data hq]
  obtain ⟨s, hs, hpos, hbits⟩ := bucketCost_zero_matched hdata hbz r hrlen
  rw [hrD] at hpos hbits
  have hqmem := bucket_getD_mem hs
  have hqget := (mem_bucket_pos hqmem).2
  have hpos' : i =
      ((index_by_attestation_data ys (xs.getD i dA).data).getD s dPA).1 := hpos
  refine ⟨((index_by_attestation_data ys (xs.getD i dA).data).getD s dPA).2,
    ?_, ?_, hbits⟩
  · nth_rewrite 1 [hpos']
    exact hqget
  · rw [mem_bucket_data hqmem]

/-- Zero list distance forces equal lengths and pointwise agreement of vote
data and padded bitfields. -/
theorem AttList.distance_zero_spec {xs ys : List Attestation}
    (h : AttList.distance xs ys = some 0) :
    xs.length = ys.length ∧ ∀ i < xs.length,
      (xs.getD i dA).data = (ys.getD i dA).data ∧
      ∀ k, (xs.getD i dA).aggregation_bits.getD k false =
        (ys.getD i dA).aggregation_bits.getD k false := by
  have h' : AttList.distance ys xs = some 0 := by
    rw [← AttList.distance_symm]
    exact h
  have hfw := AttList.distance_zero_pointwise h
  have hbw := AttList.distance_zero_pointwise h'
  have h1 : ∀ i < xs.length, i < ys.length := fun i hi => by
    obtain ⟨b, hb, -, -⟩ := hfw i hi
    obtain ⟨hlt, -⟩ := List.get?_eq_some.mp hb
    exact hlt
  have h2 : ∀ i < ys.length, i < xs.length := fun i hi => by
    obtain ⟨b, hb, -, -⟩ := hbw i hi
    obtain ⟨hlt, -⟩ := List.get?_eq_some.mp hb
    exact hlt
  have hlen : xs.length = ys.length := by
    refine le_antisymm ?_ ?_
    · by_contra hc
      exact absurd (h1 ys.length (Nat.lt_of_not_le hc)) (lt_irrefl _)
    · by_contra hc
      exact absurd (h2 xs.length (Nat.lt_of_not_le hc)) (lt_irrefl _)
  refine ⟨hlen, fun i hi => ?_⟩
  obtain ⟨b, hb, hdata, hbits⟩ := hfw i hi
  have hyi : ys.getD i dA = b := by
    rw [List.getD_eq_getElem?_getD, ← List.get?_eq_getElem?, hb, Option.getD_some]
  rw [hyi]
  exact ⟨hdata, fun k => (bitDist_eq_zero_iff _ _).mp hbits k⟩

/-- With a uniform bitfield length (one committee size), zero distance implies
equality of the two lists. -/
theorem AttList.distance_zero_eq {xs ys : List Attestation} (L : Nat)
    (hxL : ∀ a ∈ xs, a.aggregation_bits.length = L)
    (hyL : ∀ a ∈ ys, a.aggregation_bits.length = L)
    (h : AttList.distance xs ys = some 0) : xs = ys := by
  obtain ⟨hlen, hpt⟩ := AttList.distance_zero_spec h
  refine List.ext_getElem hlen fun i hi hi' => ?_
  obtain ⟨hdata, hbits⟩ := hpt i hi
  have hx : xs.getD i dA = xs[i] := by
    rw [List.getD_eq_getElem?_getD, List.getElem?_eq_getElem hi, Option.getD_some]
  have hy : ys.getD i dA = ys[i] := by
    rw [List.getD_eq_getElem?_getD, List.getElem?_eq_getElem hi', Option.getD_some]
  rw [hx, hy] at hdata
  have hbits' := fun k => hbits k
  have hbl : xs[i].aggregation_bits.length = ys[i].aggregation_bits.length := by
    rw [hxL _ (List.getElem_mem _), hyL _ (List.getElem_mem _)]
  refine Attestation.ext_of hdata (List.ext_getElem hbl fun k hk hk' => ?_)
  have hb := hbits k
  rw [hx, hy] at hb
  rw [List.getD_eq_getElem?_getD, List.getElem?_eq_getElem hk, Option.getD_some,
    List.getD_eq_getElem?_getD, List.getElem?_eq_getElem hk',
    Option.getD_some] at hb
  exact hb

/-! ## Concrete instances for the refutations -/

theorem distance_two_keys (xs ys : List Attestation) (d1 d2 : AttestationData)
    (hA : attDatas xs ys = [d1, d2]) :
    AttList.distance xs ys = some
      (bucketCost (index_by_attestation_data xs d1)
        (index_by_attestation_data ys d1) +
       bucketCost (index_by_attestation_data xs d2)
        (index_by_attestation_data ys d2)) := by
  rw [AttList.distance_eq_bucketSum, hA]
  simp only [List.map_cons, List.map_nil, List.sum_cons, List.sum_nil,
    Nat.add_zero]

theorem distance_one_key (xs ys : List Attestation) (d1 : AttestationData)
    (hA : attDatas xs ys = [d1]) :
    AttList.distance xs ys = some
      (bucketCost (index_by_attestation_data xs d1)
        (index_by_attestation_data ys d1)) := by
  rw [AttList.distance_eq_bucketSum, hA]
  simp only [List.map_cons, List.map_nil, List.sum_cons, List.sum_nil,
    Nat.add_zero]

def dDat : AttestationData := ⟨1, 0, 0, ⟨0, 0⟩, ⟨0, 0⟩⟩
def dFil : AttestationData := ⟨0, 0, 0, ⟨0, 0⟩, ⟨0, 0⟩⟩
def attD : Attestation := ⟨dDat, []⟩
def attF : Attestation := ⟨dFil, []⟩

/-- 258 attestations on the left: 257 with vote data `dFil`, one with `dDat`. -/
def cx1 : List Attestation := List.replicate 257 attF ++ [attD]

def cz1 : List Attestation := [attD]

set_option maxRecDepth 10000 in
theorem cx1_attDatas_cz1 : attDatas cx1 cz1 = [dFil, dDat] := by decide

set_option maxRecDepth 10000 in
theorem cx1_attDatas_nil : attDatas cx1 [] = [dFil, dDat] := by decide

set_option maxRecDepth 10000 in
theorem cx1_bucket_dDat : index_by_attestation_data cx1 dDat = [(257, attD)] := by
  decide

set_option maxRecDepth 10000 in
theorem cx1_bucket_dFil_sum :
    ((index_by_attestation_data cx1 dFil).map
      (fun p => num_set_bits p.2.aggregation_bits + INDEL_COST)).sum = 32896 := by
  decide

theorem cx1_cz1_distance : AttList.distance cx1 cz1 = some 33153 := by
  have hzF : index_by_attestation_data cz1 dFil = [] := by decide
  have hzD : index_by_attestation_data cz1 dDat = [(0, attD)] := by decide
  rw [distance_two_keys cx1 cz1 dFil dDat cx1_attDatas_cz1, hzF,
    cx1_bucket_dDat, hzD, bucketCost_right_nil, bucketCost_pair,
    cx1_bucket_dFil_sum]
  decide

theorem cx1_nil_distance : AttList.distance cx1 [] = some 33024 := by
  have hnilF : index_by_attestation_data ([] : List Attestation) dFil = [] := rfl
  have hnilD : index_by_attestation_data ([] : List Attestation) dDat = [] := rfl
  rw [distance_two_keys cx1 [] dFil dDat cx1_attDatas_nil, cx1_bucket_dDat,
    hnilF, hnilD, bucketCost_right_nil, bucketCost_right_nil,
    cx1_bucket_dFil_sum]
  decide

theorem nil_cz1_distance : AttList.distance [] cz1 = some 128 := by
  have hA : attDatas [] cz1 = [dDat] := by decide
  have hnilD : index_by_attestation_data ([] : List Attestation) dDat = [] := rfl
  have hzD : index_by_attestation_data cz1 dDat = [(0, attD)] := by decide
  rw [distance_one_key [] cz1 dDat hA, hnilD, hzD, bucketCost_left_nil]
  decide

/-- Refutation instance for the triangle inequality: with 258 attestations on
the left, one position displacement (257) exceeds the cost of an
insert/delete pair (2 × 128 = 256), and the triangle inequality fails:
d(x,z) = 33153, d(x,y) + d(y,z) = 33024 + 128 = 33152. -/
theorem C1_counterexample :
    ¬ ((AttList.distance cx1 cz1).getD 0 ≤
      (AttList.distance cx1 []).getD 0 + (AttList.distance [] cz1).getD 0) := by
  rw [cx1_cz1_distance, cx1_nil_distance, nil_cz1_distance]
  decide

/-- C1: the attestation-list distance satisfies the triangle inequality
`d(x,z) ≤ d(x,y) + d(y,z)` — amended: this holds for lists of at most 128
attestations (the bound `MAX_ATTESTATIONS = 128` used by the property tests);
for longer lists it fails (see the refutation above). -/
theorem C1_triangle_bounded (xs ys zs : List Attestation)
    (hx : xs.length ≤ 128) (hz : zs.length ≤ 128) :
    (AttList.distance xs zs).getD 0 ≤
      (AttList.distance xs ys).getD 0 + (AttList.distance ys zs).getD 0 :=
  AttList.distance_triangle xs ys zs hx hz

theorem C1_triangle_bounded_witness :
    ([attD] : List Attestation).length ≤ 128 ∧
      ([] : List Attestation).length ≤ 128 ∧
      (AttList.distance [attD] []).getD 0 ≤
        (AttList.distance [attD] [attF]).getD 0 +
          (AttList.distance [attF] []).getD 0 :=
  ⟨by decide, by decide,
    C1_triangle_bounded [attD] [attF] [] (by decide) (by decide)⟩

/-- A padded variant of `attD`: same vote data, one additional (unset) bit. -/
def attDpad : Attestation := ⟨dDat, [false]⟩

/-- Refutation instance for identity of indiscernibles: two distinct lists
(the bitfields differ in length) at distance zero, because the bitfield
distance ignores trailing unset padding. -/
theorem C2_counterexample :
    AttList.distance [attD] [attDpad] = some 0 ∧
      ([attD] : List Attestation) ≠ [attDpad] := by
  constructor
  · decide
  · decide

/-- C2: `d(x,x) = 0` and `x ≠ y ⇒ d(x,y) > 0` — amended: the first half holds
unconditionally; the second holds for lists whose aggregation bitfields all
have one common length (one committee size).  Without that restriction it
fails (see the refutation above). -/
theorem C2_identity (xs ys : List Attestation) (L : Nat)
    (hxL : ∀ a ∈ xs, a.aggregation_bits.length = L)
    (hyL : ∀ a ∈ ys, a.aggregation_bits.length = L) :
    AttList.distance xs xs = some 0 ∧
      (xs ≠ ys → 0 < (AttList.distance xs ys).getD 0) := by
  refine ⟨AttList.distance_self xs, fun hne => ?_⟩
  by_contra hc
  have hc' : (AttList.distance xs ys).getD 0 = 0 := by omega
  have h0 : AttList.distance xs ys = some 0 := by
    obtain hsum := AttList.distance_eq_finsetSum xs ys
    rw [hsum] at hc' ⊢
    rw [Option.getD_some] at hc'
    rw [hc']
  exact hne (AttList.distance_zero_eq L hxL hyL h0)

theorem C2_identity_witness :
    (∀ a ∈ ([attD] : List Attestation), a.aggregation_bits.length = 0) ∧
      (∀ a ∈ ([attF] : List Attestation), a.aggregation_bits.length = 0) ∧
      (AttList.distance [attD] [attD] = some 0 ∧
        (([attD] : List Attestation) ≠ [attF] →
          0 < (AttList.distance [attD] [attF]).getD 0)) :=
  ⟨by decide, by decide, C2_identity [attD] [attF] 0 (by decide) (by decide)⟩

/-! The invertibility refutation: a symmetric 3×3 bucket whose only optimal
assignments are the two 3-cycles.  Cost matrix (position displacement plus
bitfield distance): rows/columns at positions 0,1,2, bit patterns chosen so
every entry is 3 off the diagonal and 5 on it.  Both directions solve the same
(symmetric) matrix, so the solver returns the same 3-cycle for both; since a
3-cycle is not an involution, the inverted delta differs from the reverse
delta. -/

def cDat3 : AttestationData := ⟨2, 0, 0, ⟨0, 0⟩, ⟨0, 0⟩⟩

def cx3 : List Attestation :=
  [⟨cDat3, [false, false, false, false, false]⟩,
   ⟨cDat3, [true, true, true, false, false]⟩,
   ⟨cDat3, [true, true, false, true, true]⟩]

def cy3 : List Attestation :=
  [⟨cDat3, [true, true, true, true, true]⟩,
   ⟨cDat3, [false, false, false, true, true]⟩,
   ⟨cDat3, [false, false, true, false, false]⟩]

set_option maxRecDepth 4000 in
/-- Refutation instance for delta invertibility: inverting the delta for
`cx3 → cy3` does not give the delta for `cy3 → cx3`. -/
theorem C3_counterexample :
    AttList.invert_delta ((AttList.delta cx3 cy3).getD []) ≠
      (AttList.delta cy3 cx3).getD [] := by
  decide

/-- C3: inverting a delta and re-sorting yields the delta of the reversed
pair, and `d(x,y) = d(y,x)` — amended: the inverted delta always has the same
total cost as the reverse delta, and the scalar distance is symmetric; but the
inverted delta list itself can differ from the reverse delta list (see the
refutation above). -/
theorem C3_invert (xs ys : List Attestation) (l : List Delta)
    (hl : AttList.delta xs ys = some l) :
    AttList.delta_to_distance (AttList.invert_delta l) =
      (AttList.distance ys xs).getD 0 ∧
    AttList.distance xs ys = AttList.distance ys xs := by
  have hsymm := AttList.distance_symm xs ys
  refine ⟨?_, hsymm⟩
  rw [AttList.delta_to_distance_invert, ← hsymm, AttList.distance, hl,
    Option.map_some', Option.getD_some]

theorem C3_invert_witness :
    AttList.delta ([] : List Attestation) [] = some [] ∧
      (AttList.delta_to_distance (AttList.invert_delta []) =
        (AttList.distance [] []).getD 0 ∧
      AttList.distance ([] : List Attestation) [] =
        AttList.distance [] []) :=
  ⟨by decide, C3_invert [] [] [] (by decide)⟩

/-! ## C4, C5: per-element delta costs -/

/-- C4: the single-attestation distance is defined iff the two vote data are
equal, and is then the symmetric-difference cardinality of the aggregation
bitfields, i.e. the popcount of their xor. -/
theorem C4_single_distance (a b : Attestation) :
    a.distance b =
      if a.data = b.data
      then some (num_set_bits (xorBits a.aggregation_bits b.aggregation_bits))
      else none := by
  by_cases h : a.data = b.data
  · rw [if_pos h, Attestation.distance_eq_bitDist a b h, bitDist_eq_xorCount]
  · rw [if_neg h, (Attestation.distance_none_iff a b).mpr h]

theorem reconstructDeltas_mem_shape (atts1 atts2 : List (Nat × Attestation))
    (σ : List Nat) (e : Delta) (he : e ∈ reconstructDeltas atts1 atts2 σ) :
    ∀ l r p b, e = Delta.Modify l r p b → p = Nat.dist l r := by
  rw [reconstructDeltas] at he
  obtain ⟨k, -, hk⟩ := List.mem_map.mp he
  revert hk
  rcases atts1.get? k with _ | p1 <;> rcases atts2.get? (σ.getD k 0) with _ | q1 <;>
    intro hk <;> intro l r p b hlrpb
  · rw [hlrpb] at hk
    cases hk
    rfl
  · rw [hlrpb] at hk
    exact Delta.noConfusion hk
  · rw [hlrpb] at hk
    exact Delta.noConfusion hk
  · rw [hlrpb] at hk
    cases hk
    rfl

theorem AttList.delta_mem_shape (xs ys : List Attestation) {ds : List Delta}
    (hds : AttList.delta xs ys = some ds) :
    ∀ e ∈ ds, ∀ l r p b, e = Delta.Modify l r p b → p = Nat.dist l r := by
  have hds' : ds =
      sort_deltas (((attDatas xs ys).map (bucketDeltas xs ys)).flatten) :=
    (Option.some.inj hds).symm
  intro e he
  rw [hds'] at he
  have he' : e ∈ ((attDatas xs ys).map (bucketDeltas xs ys)).flatten :=
    (sortBy_perm Delta.keyLe _).subset he
  obtain ⟨L, hL, heL⟩ := List.mem_flatten.mp he'
  obtain ⟨d, -, rfl⟩ := List.mem_map.mp hL
  rw [bucketDeltas, compute_matching_att_deltas_eq] at heL
  exact reconstructDeltas_mem_shape _ _ _ e heL

/-- C5: the scalar list distance is the sum of per-element delta costs: each
`Modify` contributes `pos_distance + bit_distance` where `pos_distance` is the
absolute difference of the two original indices, and each insert contributes
`num_set_bits + INDEL_COST` with `INDEL_COST = 128`. -/
theorem C5_delta_costs (xs ys : List Attestation) :
    ∃ ds, AttList.delta xs ys = some ds ∧
      AttList.distance xs ys = some ((ds.map Delta.total_distance).sum) ∧
      (∀ l r p b, Delta.Modify l r p b ∈ ds →
        Delta.total_distance (Delta.Modify l r p b) = p + b ∧
          p = Nat.dist l r) ∧
      (∀ i n, Delta.InsertLeft i n ∈ ds →
        Delta.total_distance (Delta.InsertLeft i n) = n + INDEL_COST) ∧
      (∀ i n, Delta.InsertRight i n ∈ ds →
        Delta.total_distance (Delta.InsertRight i n) = n + INDEL_COST) := by
  refine ⟨_, rfl, rfl, ?_, ?_, ?_⟩
  · intro l r p b hmem
    exact ⟨rfl, AttList.delta_mem_shape xs ys rfl _ hmem l r p b rfl⟩
  · intro i n _
    rfl
  · intro i n _
    rfl

/-! ## C7: wire selection -/

def cfgSsz : NodeConfig :=
  { name := "n", label := "l", url := "u", skip_randao_verification := false,
    use_builder := false, ssz := true, v3 := true, enabled := true,
    builder_boost_factor := none }

/-- Refutation instance for the v3 wire selection: a node with `ssz = true`
still receives JSON on the v3 path (the SSZ dispatch there is commented out
in the source). -/
theorem C7_counterexample :
    cfgSsz.ssz = true ∧
      get_block_v3_wire cfgSsz ≠ WireFormat.sszWithChainSpec := by
  exact ⟨rfl, by decide⟩

/-- C7 (amended): on the legacy path (`get_block`) the `ssz` flag selects
SSZ-with-chain-spec decoding and otherwise JSON; the v3 path
(`get_block_v3`) always uses JSON, regardless of the flag. -/
theorem C7_wire_selection (config : NodeConfig) :
    (get_block_wire config = WireFormat.sszWithChainSpec ↔ config.ssz = true) ∧
      get_block_v3_wire config = WireFormat.json := by
  refine ⟨?_, rfl⟩
  rw [get_block_wire]
  by_cases h : config.ssz = true
  · simp [h]
  · simp [h]

/-! ## C8: the prune step -/

/-- C8: the prune step retains exactly the last `NUM_SLOTS_IN_MEMORY = 8`
slots: an entry of the window survives iff `stored_slot + 8 ≥ slot`,
equivalently it is removed iff its slot is older than `slot - 8`. -/
theorem C8_prune_window {α : Type} (all_blocks : List (Nat × α)) (slot : Nat)
    (e : Nat × α) (he : e ∈ all_blocks) :
    (e ∈ pruneWindow all_blocks slot ↔ slot ≤ e.1 + NUM_SLOTS_IN_MEMORY) ∧
      (e ∉ pruneWindow all_blocks slot ↔ e.1 + NUM_SLOTS_IN_MEMORY < slot) := by
  have h1 : e ∈ pruneWindow all_blocks slot ↔
      slot ≤ e.1 + NUM_SLOTS_IN_MEMORY := by
    rw [pruneWindow, List.mem_filter]
    constructor
    · rintro ⟨-, hd⟩
      exact of_decide_eq_true hd
    · intro hle
      exact ⟨he, decide_eq_true hle⟩
  refine ⟨h1, ?_⟩
  constructor
  · intro hn
    by_contra hc
    exact hn (h1.mpr (by omega))
  · intro hlt hmem
    have := h1.mp hmem
    omega

theorem C8_prune_window_witness :
    ((0, 0) : Nat × Nat) ∈ [((0 : Nat), (0 : Nat))] ∧
      ((((0, 0) : Nat × Nat) ∈ pruneWindow [((0 : Nat), (0 : Nat))] 9 ↔
          9 ≤ (((0, 0) : Nat × Nat)).1 + NUM_SLOTS_IN_MEMORY) ∧
        (((0, 0) : Nat × Nat) ∉ pruneWindow [((0 : Nat), (0 : Nat))] 9 ↔
          (((0, 0) : Nat × Nat)).1 + NUM_SLOTS_IN_MEMORY < 9)) :=
  ⟨by decide, C8_prune_window [((0 : Nat), (0 : Nat))] 9 (0, 0) (by decide)⟩

/-! ## C9: sink naming -/

def sinkCfg : PostEndpointConfig :=
  { name := "blockprint", url := "http://sink.example", results_dir := none,
    extra_data := false, compare_rewards := false, require_all := false,
    require_same_parent := false }

/-- C9: the constructed endpoint's `name` is the config's `url`, not its
`name`: `PostEndpoint::new` reads `let name = config.url.clone()`.  A sink
whose configured name and url differ is therefore misidentified in every
per-sink stderr report. -/
theorem C9_sink_name :
    (∀ config : PostEndpointConfig,
        (PostEndpoint.new config).name = config.url) ∧
      (PostEndpoint.new sinkCfg).name ≠ sinkCfg.name :=
  ⟨fun _ => rfl, by decide⟩

/-! ## C10: totality of the list-level delta -/

/-- C10: the list-level delta is total (`Some` for every pair of lists, even
with disjoint vote data), and the scalar distance with it; only the
single-attestation distance can be `None` (exactly on differing vote data). -/
theorem C10_totality :
    (∀ xs ys : List Attestation, ∃ ds, AttList.delta xs ys = some ds ∧
        AttList.distance xs ys = some (AttList.delta_to_distance ds)) ∧
      ∃ a b : Attestation, a.distance b = none := by
  refine ⟨fun xs ys => ⟨_, rfl, rfl⟩, attD, attF, ?_⟩
  exact (Attestation.distance_none_iff _ _).mpr (by decide)

/-! ## C6: the classifier -/

theorem orderedInsert_pairwise {α : Type _} (le : α → α → Bool)
    (htrans : ∀ a b c, le a b = true → le b c = true → le a c = true)
    (htot : ∀ a b, le a b = true ∨ le b a = true) (a : α) :
    ∀ l : List α, l.Pairwise (fun x y => le x y = true) →
      (orderedInsert le a l).Pairwise (fun x y => le x y = true)
  | [], _ => List.pairwise_singleton _ _
  | b :: bs, hl => by
    rw [orderedInsert]
    obtain ⟨hb, hbs⟩ := List.pairwise_cons.mp hl
    by_cases h : le a b = true
    · rw [if_pos h]
      refine List.Pairwise.cons ?_ hl
      intro y hy
      rcases List.mem_cons.mp hy with rfl | hy'
      · exact h
      · exact htrans a b y h (hb y hy')
    · rw [if_neg h]
      have hba : le b a = true := (htot a b).resolve_left h
      refine List.Pairwise.cons ?_ (orderedInsert_pairwise le htrans htot a bs hbs)
      intro y hy
      have hy' := (orderedInsert_perm le a bs).mem_iff.mp hy
      rcases List.mem_cons.mp hy' with rfl | hy2
      · exact hba
      · exact hb y hy2

theorem sortBy_pairwise {α : Type _} (le : α → α → Bool)
    (htrans : ∀ a b c, le a b = true → le b c = true → le a c = true)
    (htot : ∀ a b, le a b = true ∨ le b a = true) :
    ∀ l : List α, (sortBy le l).Pairwise (fun x y => le x y = true)
  | [] => List.Pairwise.nil
  | a :: as_ =>
    orderedInsert_pairwise le htrans htot a _ (sortBy_pairwise le htrans htot as_)

/-- Refutation instance for the tie-break: on two entries at equal distance the
code (no name comparison at all) and the spec's name tie-break disagree. -/
def labelsC6 : String → String :=
  fun n => if n = "a" then "lighthouse" else "prysm"

theorem C6_counterexample :
    classify labelsC6 [("b", 0), ("a", 0)] ≠
      classifySpec labelsC6 [("b", 0), ("a", 0)] := by
  decide

/-- C6 (amended): the classifier sorts the `(name, distance)` pairs ascending
by distance ONLY (the code breaks no ties by name); the sorted list is a
permutation of the input, pairwise ordered by distance.  Writing `closest` for
the head and `second` for the next entry (the head itself when absent), it
reports: same label → likely matching; `second.distance ≥
closest.distance * 2 / 1` (integer division) → significantly closer;
otherwise too close to call. -/
theorem C6_classifier (labels : String → String)
    (distances : List (String × Nat)) (cn : String) (cd : Nat)
    (rest : List (String × Nat))
    (hs : sortBy (fun a b => decide (a.2 ≤ b.2)) distances = (cn, cd) :: rest) :
    ((cn, cd) :: rest).Perm distances ∧
    ((cn, cd) :: rest).Pairwise (fun a b => a.2 ≤ b.2) ∧
    classify labels distances =
      (let second := rest.headD (cn, cd)
       if labels cn = labels second.1 then
         some (Classification.likelyMatching (labels cn) cd)
       else if second.2 ≥ cd * SIGNIFICANCE_NUMERATOR / SIGNIFICANCE_DENOM then
         some (Classification.likelySignificant (labels cn) cd
           (labels second.1) second.2)
       else
         some (Classification.tooCloseToCall cn cd second.1 second.2)) := by
  refine ⟨hs ▸ sortBy_perm _ distances, ?_, ?_⟩
  · have hp := sortBy_pairwise (fun a b : String × Nat => decide (a.2 ≤ b.2))
      (fun a b c hab hbc => by
        have h1 := of_decide_eq_true hab
        have h2 := of_decide_eq_true hbc
        exact decide_eq_true (le_trans h1 h2))
      (fun a b => by
        rcases Nat.le_total a.2 b.2 with h | h
        · exact Or.inl (decide_eq_true h)
        · exact Or.inr (decide_eq_true h)) distances
    rw [hs] at hp
    exact hp.imp (fun h => of_decide_eq_true h)
  · have h := congrArg (fun l : List (String × Nat) =>
      match l with
      | [] => (none : Option Classification)
      | (closest_name, closest_distance) :: rest =>
        let second := rest.headD (closest_name, closest_distance)
        let closest_label := labels closest_name
        let second_closest_label := labels second.1
        if closest_label = second_closest_label then
          some (.likelyMatching closest_label closest_distance)
        else if second.2 ≥
            closest_distance * SIGNIFICANCE_NUMERATOR / SIGNIFICANCE_DENOM then
          some (.likelySignificant closest_label closest_distance
            second_closest_label second.2)
        else
          some (.tooCloseToCall closest_name closest_distance
            second.1 second.2)) hs
    exact h

theorem C6_classifier_witness :
    sortBy (fun a b : String × Nat => decide (a.2 ≤ b.2)) [("b", 3), ("a", 1)] =
        ("a", 1) :: [("b", 3)] ∧
      (((("a", 1) : String × Nat) :: [("b", 3)]).Perm [("b", 3), ("a", 1)] ∧
        (((("a", 1) : String × Nat) :: [("b", 3)]).Pairwise
          (fun a b => a.2 ≤ b.2)) ∧
        classify (fun n => n) [("b", 3), ("a", 1)] =
          (let second := [(("b", 3) : String × Nat)].headD ("a", 1)
           if (fun n : String => n) "a" = (fun n : String => n) second.1 then
             some (Classification.likelyMatching ((fun n : String => n) "a") 1)
           else if second.2 ≥ 1 * SIGNIFICANCE_NUMERATOR / SIGNIFICANCE_DENOM then
             some (Classification.likelySignificant ((fun n : String => n) "a") 1
               ((fun n : String => n) second.1) second.2)
           else
             some (Classification.tooCloseToCall "a" 1 second.1 second.2))) :=
  ⟨by decide, C6_classifier (fun n => n) [("b", 3), ("a", 1)] "a" 1 [("b", 3)]
    (by decide)⟩
